import Mathlib

/-!
Verification of the MDT batch-processing and chunked-processing engine.

The definitions below are shallow embeddings of the Python sources:
  * `mdt/data/components/standard/processing_strategies/VoxelRange.py`
    (`VoxelRange._chunks_generator`, `VoxelRange.run`, `VoxelRange._run_on_slice`)
  * `mdt/batch_utils.py`
    (`SelectedSubjects`, `SimpleBatchProfile`, `get_best_batch_profile`,
     `BatchFitOutputInfo._get_single_model_names`, `collect_batch_fit_output`,
     `SimpleBatchProfile._get_subject_output_dir`)

External collaborators (the fitting worker, NIfTI I/O, the model registry) are
kept abstract: they appear as explicit function parameters or record fields, and
the filesystem is modelled as explicit state.  Machine integers in the Python
sources are arbitrary-precision, so Nat/Int translate them exactly.
-/

namespace MDT

/-! ## VoxelRange._chunks_generator

Python source (`VoxelRange.py`):
    total_nmr_voxels = np.count_nonzero(mask)
    for ind_start in range(0, total_nmr_voxels, self.nmr_voxels):
        ind_end = min(total_nmr_voxels, ind_start + self.nmr_voxels)
        yield ind_start, ind_end

The mask enters only through its number of active voxels, so the embedding
takes `total` (= `np.count_nonzero(mask)`) directly.  The `range` loop with a
step is written as fuel-bounded recursion on the running start index; `total`
steps of fuel are always enough when the step is positive. -/

def chunksFrom (total nmr : Nat) : Nat → Nat → List (Nat × Nat)
  | 0, _ => []
  | fuel + 1, start =>
    if start < total then
      (start, min total (start + nmr)) :: chunksFrom total nmr fuel (start + nmr)
    else []

def chunksGenerator (total nmr : Nat) : List (Nat × Nat) :=
  chunksFrom total nmr total 0

lemma lt_ceil_iff (total nmr j : Nat) (h : 0 < nmr) :
    j < (total + nmr - 1) / nmr ↔ j * nmr < total := by
  rw [Nat.lt_iff_add_one_le, Nat.le_div_iff_mul_le h]
  have e : (j + 1) * nmr = j * nmr + nmr := by ring
  rw [e]
  generalize j * nmr = a
  omega

lemma chunksFrom_eq (total nmr : Nat) (h : 0 < nmr) :
    ∀ fuel j, total ≤ j * nmr + fuel * nmr →
      chunksFrom total nmr fuel (j * nmr) =
        (List.range ((total + nmr - 1) / nmr - j)).map
          (fun i => ((j + i) * nmr, min total ((j + i) * nmr + nmr))) := by
  intro fuel
  induction fuel with
  | zero =>
    intro j hj
    have hC : (total + nmr - 1) / nmr ≤ j := by
      by_contra hc
      have := (lt_ceil_iff total nmr j h).mp (Nat.lt_of_not_le hc)
      simp only [Nat.zero_mul, Nat.add_zero] at hj
      omega
    have : (total + nmr - 1) / nmr - j = 0 := by omega
    rw [this]
    rfl
  | succ fuel ih =>
    intro j hj
    by_cases hlt : j * nmr < total
    · have hjC : j < (total + nmr - 1) / nmr := (lt_ceil_iff total nmr j h).mpr hlt
      have hsub : (total + nmr - 1) / nmr - j = ((total + nmr - 1) / nmr - (j + 1)) + 1 := by
        omega
      have hstep : j * nmr + nmr = (j + 1) * nmr := by ring
      have hnext : total ≤ (j + 1) * nmr + fuel * nmr := by
        have : j * nmr + (fuel + 1) * nmr = (j + 1) * nmr + fuel * nmr := by ring
        omega
      have ihj := ih (j + 1) hnext
      rw [chunksFrom, if_pos hlt, hstep, ihj, hsub, List.range_succ_eq_map]
      simp only [List.map_cons, List.map_map]
      congr 1
      · simp [← hstep]
      · apply List.map_congr_left
        intro i _
        simp only [Function.comp_apply]
        have e2 : j + 1 + i = j + (i + 1) := by omega
        rw [e2]
    · have hC : (total + nmr - 1) / nmr ≤ j := by
        by_contra hc
        exact hlt ((lt_ceil_iff total nmr j h).mp (Nat.lt_of_not_le hc))
      have : (total + nmr - 1) / nmr - j = 0 := by omega
      rw [chunksFrom, if_neg hlt, this]
      rfl

lemma chunksGenerator_eq (total nmr : Nat) (h : 0 < nmr) :
    chunksGenerator total nmr =
      (List.range ((total + nmr - 1) / nmr)).map
        (fun i => (i * nmr, min total (i * nmr + nmr))) := by
  have h0 : total ≤ 0 * nmr + total * nmr := by
    have := Nat.le_mul_of_pos_right total h
    omega
  have := chunksFrom_eq total nmr h total 0 h0
  simp only [Nat.zero_mul, Nat.zero_add, Nat.sub_zero] at this
  exact this

/-- The half-open-range partition property of the generated chunks, as stated
by the spec: contiguous, non-overlapping, increasing half-open ranges covering
`[0, total)` exactly, each of length at most `nmr`, `ceil(total / nmr)` many of
them, and no ranges exactly when `total = 0`. -/
def ChunksPartitionSpec (total nmr : Nat) : Prop :=
  (chunksGenerator total nmr).length = (total + nmr - 1) / nmr ∧
  (∀ i, ∀ hi : i < (chunksGenerator total nmr).length,
      (chunksGenerator total nmr).get ⟨i, hi⟩ = (i * nmr, min total (i * nmr + nmr))) ∧
  (∀ p ∈ chunksGenerator total nmr, p.1 < p.2 ∧ p.2 - p.1 ≤ nmr ∧ p.2 ≤ total) ∧
  (∀ i, ∀ hi : i + 1 < (chunksGenerator total nmr).length,
      ((chunksGenerator total nmr).get ⟨i, Nat.lt_of_succ_lt hi⟩).2 =
        ((chunksGenerator total nmr).get ⟨i + 1, hi⟩).1) ∧
  (∀ i j, ∀ hi : i < (chunksGenerator total nmr).length,
      ∀ hj : j < (chunksGenerator total nmr).length, i < j →
      ((chunksGenerator total nmr).get ⟨i, hi⟩).2 ≤
        ((chunksGenerator total nmr).get ⟨j, hj⟩).1) ∧
  (∀ k, k < total ↔ ∃ p ∈ chunksGenerator total nmr, p.1 ≤ k ∧ k < p.2) ∧
  (chunksGenerator total nmr = [] ↔ total = 0)

/-- C1: for every active-voxel count `total ≥ 0` and chunk size `nmr > 0`,
`VoxelRange._chunks_generator` yields contiguous, non-overlapping, increasing
half-open ranges covering `[0, total)` exactly, each of length at most `nmr`,
with `ceil(total / nmr)` ranges, and zero ranges iff `total = 0`. -/
theorem chunks_generator_partition (total nmr : Nat) (h : 0 < nmr) :
    ChunksPartitionSpec total nmr := by
  have hEq := chunksGenerator_eq total nmr h
  have hlen : (chunksGenerator total nmr).length = (total + nmr - 1) / nmr := by
    rw [hEq, List.length_map, List.length_range]
  have hget : ∀ i, ∀ hi : i < (chunksGenerator total nmr).length,
      (chunksGenerator total nmr).get ⟨i, hi⟩ = (i * nmr, min total (i * nmr + nmr)) := by
    intro i hi
    simp only [List.get_eq_getElem]
    rw [List.getElem_of_eq hEq hi]
    simp
  refine ⟨hlen, hget, ?_, ?_, ?_, ?_, ?_⟩
  · -- each chunk is nonempty, at most nmr long and ends within the range
    intro p hp
    rw [hEq] at hp
    rcases List.mem_map.mp hp with ⟨i, hi, hfi⟩
    rw [List.mem_range] at hi
    have hi' : i * nmr < total := (lt_ceil_iff total nmr i h).mp hi
    subst hfi
    refine ⟨?_, ?_, ?_⟩
    · simp only
      omega
    · simp only
      omega
    · simp only
      omega
  · -- contiguity
    intro i hi
    have h1 := hget i (Nat.lt_of_succ_lt hi)
    have h2 := hget (i + 1) hi
    rw [h1, h2]
    have hi' : i + 1 < (total + nmr - 1) / nmr := by rw [← hlen]; exact hi
    have : (i + 1) * nmr < total := (lt_ceil_iff total nmr (i + 1) h).mp hi'
    simp only
    have e : i * nmr + nmr = (i + 1) * nmr := by ring
    omega
  · -- non-overlap for arbitrary pairs
    intro i j hi hj hij
    rw [hget i hi, hget j hj]
    simp only
    have e : i * nmr + nmr = (i + 1) * nmr := by ring
    have hmul : (i + 1) * nmr ≤ j * nmr := Nat.mul_le_mul_right nmr hij
    omega
  · -- exact coverage of [0, total)
    intro k
    constructor
    · intro hk
      refine ⟨(k / nmr * nmr, min total (k / nmr * nmr + nmr)), ?_, ?_, ?_⟩
      · rw [hEq]
        refine List.mem_map.mpr ⟨k / nmr, ?_, rfl⟩
        rw [List.mem_range, lt_ceil_iff total nmr _ h]
        have := Nat.div_mul_le_self k nmr
        omega
      · exact Nat.div_mul_le_self k nmr
      · have hdm := Nat.div_add_mod k nmr
        have hm : k % nmr < nmr := Nat.mod_lt k h
        rw [Nat.mul_comm] at hdm
        generalize k / nmr * nmr = a at *
        omega
    · rintro ⟨p, hp, hk1, hk2⟩
      rw [hEq] at hp
      rcases List.mem_map.mp hp with ⟨i, _, hfi⟩
      subst hfi
      simp only at hk2
      omega
  · -- no chunks iff no active voxels
    constructor
    · intro hempty
      by_contra h0
      have h1 : 0 * nmr < total := by
        have : 0 < total := Nat.pos_of_ne_zero h0
        simpa using this
      have h2 : 0 < (total + nmr - 1) / nmr := (lt_ceil_iff total nmr 0 h).mpr h1
      rw [hempty] at hlen
      simp at hlen
      omega
    · intro h0
      subst h0
      rfl

/-- Witness for C1 at `total = 5`, `nmr = 2`. -/
theorem chunks_generator_partition_witness : 0 < 2 ∧ ChunksPartitionSpec 5 2 :=
  ⟨by decide, chunks_generator_partition 5 2 (by decide)⟩

lemma chunksGenerator_nodup (total nmr : Nat) (h : 0 < nmr) :
    (chunksGenerator total nmr).Nodup := by
  rw [chunksGenerator_eq total nmr h]
  apply List.Nodup.map
  · intro a b hab
    have h1 : a * nmr = b * nmr := congrArg Prod.fst hab
    exact Nat.eq_of_mul_eq_mul_right h h1
  · exact List.nodup_range _

lemma chunksGenerator_pos (total nmr : Nat) (h : 0 < nmr) :
    ∀ c ∈ chunksGenerator total nmr, c.1 < c.2 := by
  intro c hc
  rw [chunksGenerator_eq total nmr h] at hc
  rcases List.mem_map.mp hc with ⟨i, hi, hfi⟩
  rw [List.mem_range] at hi
  have hi' : i * nmr < total := (lt_ceil_iff total nmr i h).mp hi
  subst hfi
  simp only
  omega

/-! ## VoxelRange.run and VoxelRange._run_on_slice

Python source (`VoxelRange.py`):
    def run(self, model, problem_data, output_path, recalculate, worker):
        mask = problem_data.mask
        indices = np.arange(0, np.count_nonzero(mask))
        chunks_dir = os.path.join(output_path, the literal name chunks)
        self._prepare_chunk_dir(chunks_dir, recalculate)
        for ind_start, ind_end in self._chunks_generator(mask):
            chunk_indices = indices[ind_start:ind_end]
            ... build chunk_mask ...
            if len(chunk_indices):
                with self._selected_indices(model, chunk_indices):
                    self._run_on_slice(...)
        return_data = worker.combine(output_path, chunks_dir)
        shutil.rmtree(chunks_dir)
        return return_data

    def _run_on_slice(self, ...):
        slice_dir = os.path.join(slices_dir, the bounds formatted as start_end)
        if recalculate and os.path.exists(slice_dir):
            shutil.rmtree(slice_dir)
        if worker.output_exists(model, problem_data, slice_dir):
            ... log skip ...
        else:
            ... log ...
            worker.process(model, problem_data, tmp_mask, slice_dir)
            Nifti.write_volume_maps(..., slice_dir, ...)

The worker and filesystem are external collaborators; they are embedded as an
abstract state `σ` touched only through the operations of `Env` below, with the
requests made by `run` recorded as an event trace.  A chunk directory is named
by its `(start, end)` bounds, so it is identified by that pair here; the
chunk-local mask construction (`create_roi` / `restore_volumes`) is abstracted
into those bounds, which the worker operations receive.  A failing collaborator
call returns the state the filesystem was left in together with the error that
propagates (Python exception). -/

inductive Event
  | prepare
  | rmtreeSlice (c : Nat × Nat)
  | skip (c : Nat × Nat)
  | processCall (c : Nat × Nat)
  | writeMask (c : Nat × Nat)
  | combineCall
  | rmtreeChunks
deriving DecidableEq, Repr

structure Env (σ ρ ε : Type) where
  /-- Modelled from the spec: `ModelChunksProcessingStrategy._prepare_chunk_dir`
  is defined in `mdt.utils`, which is not among the sources here; per the spec
  it prepares (and, when `recalculate` is set, destroys and recreates) the
  scratch chunks directory. -/
  prepareChunkDir : σ → Bool → σ
  /-- `os.path.exists(slice_dir)`. -/
  pathExists : σ → Nat × Nat → Bool
  /-- `shutil.rmtree(slice_dir)`. -/
  rmtreeSlice : σ → Nat × Nat → σ
  /-- `worker.output_exists(model, problem_data, slice_dir)`. -/
  outputExists : σ → Nat × Nat → Bool
  /-- `worker.process(model, problem_data, tmp_mask, slice_dir)`; `some e`
  means the call raised `e`, and the returned state is the filesystem state it
  left behind. -/
  process : σ → Nat × Nat → Option ε × σ
  /-- `Nifti.write_volume_maps` of the reserved `__mask` volume into `slice_dir`. -/
  writeMask : σ → Nat × Nat → σ
  /-- `worker.combine(output_path, chunks_dir)`. -/
  combine : σ → Except ε ρ × σ
  /-- `shutil.rmtree(chunks_dir)`. -/
  rmtreeChunksDir : σ → σ

variable {σ ρ ε : Type}

def runOnSlice (E : Env σ ρ ε) (recalc : Bool) (st : σ) (c : Nat × Nat) :
    Option ε × σ × List Event :=
  let step1 : σ × List Event :=
    if recalc && E.pathExists st c then (E.rmtreeSlice st c, [Event.rmtreeSlice c])
    else (st, [])
  if E.outputExists step1.1 c then (none, step1.1, step1.2 ++ [Event.skip c])
  else
    match E.process step1.1 c with
    | (some e, st') => (some e, st', step1.2 ++ [Event.processCall c])
    | (none, st') =>
      (none, E.writeMask st' c, step1.2 ++ [Event.processCall c, Event.writeMask c])

def runChunks (E : Env σ ρ ε) (recalc : Bool) :
    List (Nat × Nat) → σ → Option ε × σ × List Event
  | [], st => (none, st, [])
  | c :: cs, st =>
    if c.1 < c.2 then
      match runOnSlice E recalc st c with
      | (some e, st', tr) => (some e, st', tr)
      | (none, st', tr) =>
        let rest := runChunks E recalc cs st'
        (rest.1, rest.2.1, tr ++ rest.2.2)
    else runChunks E recalc cs st

def run (E : Env σ ρ ε) (recalc : Bool) (total nmr : Nat) (st : σ) :
    Except ε ρ × σ × List Event :=
  let st1 := E.prepareChunkDir st recalc
  match runChunks E recalc (chunksGenerator total nmr) st1 with
  | (some e, st', tr) => (Except.error e, st', Event.prepare :: tr)
  | (none, st', tr) =>
    match E.combine st' with
    | (Except.error e, st'') =>
      (Except.error e, st'', Event.prepare :: (tr ++ [Event.combineCall]))
    | (Except.ok r, st'') =>
      (Except.ok r, E.rmtreeChunksDir st'',
        Event.prepare :: (tr ++ [Event.combineCall, Event.rmtreeChunks]))

/-- Modelled from the spec: a concrete instantiation of the collaborators used
to exercise `run`.  The filesystem state is the set of chunk directories
currently holding completed output; the worker reports output as existing
exactly when the chunk directory holds output, `process` always succeeds and
writes the output of the chunk, `combine` merges the chunk outputs (returned here as
the set itself) and `shutil.rmtree` on the chunks directory removes every chunk
directory beneath it.  `_prepare_chunk_dir` (absent from the sources, in
`mdt.utils`) destroys and recreates the chunks directory when `recalculate` is
set and otherwise only ensures it exists. -/
def CE : Env (List (Nat × Nat)) (List (Nat × Nat)) Unit where
  prepareChunkDir st recalc := if recalc then [] else st
  pathExists st c := c ∈ st
  rmtreeSlice st c := st.erase c
  outputExists st c := c ∈ st
  process st c := (none, c :: st)
  writeMask st _ := st
  combine st := (Except.ok st, st)
  rmtreeChunksDir _ := []

/-- A collaborator instantiation whose worker fails on every `process` call;
used to witness the failure-propagation theorems. -/
def CEfail : Env (List (Nat × Nat)) (List (Nat × Nat)) Unit where
  prepareChunkDir st recalc := if recalc then [] else st
  pathExists st c := c ∈ st
  rmtreeSlice st c := st.erase c
  outputExists st c := c ∈ st
  process st _ := (some (), st)
  writeMask st _ := st
  combine st := (Except.ok st, st)
  rmtreeChunksDir _ := []

lemma runOnSlice_cases (E : Env σ ρ ε) (recalc : Bool) (st : σ) (c : Nat × Nat) :
    ∃ (st0 : σ) (tr0 : List Event),
      (tr0 = [] ∨ tr0 = [Event.rmtreeSlice c]) ∧
      (recalc = false → tr0 = [] ∧ st0 = st) ∧
      ((E.outputExists st0 c = true ∧
          runOnSlice E recalc st c = (none, st0, tr0 ++ [Event.skip c])) ∨
       (∃ e st', E.process st0 c = (some e, st') ∧
          runOnSlice E recalc st c = (some e, st', tr0 ++ [Event.processCall c])) ∨
       (∃ st', E.process st0 c = (none, st') ∧
          runOnSlice E recalc st c =
            (none, E.writeMask st' c, tr0 ++ [Event.processCall c, Event.writeMask c]))) := by
  by_cases h1 : (recalc && E.pathExists st c) = true
  · refine ⟨E.rmtreeSlice st c, [Event.rmtreeSlice c], Or.inr rfl, ?_, ?_⟩
    · intro hf
      rw [hf] at h1
      simp at h1
    · by_cases h2 : E.outputExists (E.rmtreeSlice st c) c = true
      · exact Or.inl ⟨h2, by simp [runOnSlice, h1, h2]⟩
      · rcases hp : E.process (E.rmtreeSlice st c) c with ⟨oe, st'⟩
        cases oe with
        | some e =>
          exact Or.inr (Or.inl ⟨e, st', rfl, by simp [runOnSlice, h1, h2, hp]⟩)
        | none =>
          exact Or.inr (Or.inr ⟨st', rfl, by simp [runOnSlice, h1, h2, hp]⟩)
  · refine ⟨st, [], Or.inl rfl, fun _ => ⟨rfl, rfl⟩, ?_⟩
    by_cases h2 : E.outputExists st c = true
    · exact Or.inl ⟨h2, by simp [runOnSlice, h1, h2]⟩
    · rcases hp : E.process st c with ⟨oe, st'⟩
      cases oe with
      | some e =>
        exact Or.inr (Or.inl ⟨e, st', rfl, by simp [runOnSlice, h1, h2, hp]⟩)
      | none =>
        exact Or.inr (Or.inr ⟨st', rfl, by simp [runOnSlice, h1, h2, hp]⟩)

lemma runOnSlice_skip (E : Env σ ρ ε) (st : σ) (c : Nat × Nat)
    (h : E.outputExists st c = true) :
    runOnSlice E false st c = (none, st, [Event.skip c]) := by
  simp [runOnSlice, h]

lemma runOnSlice_mem (E : Env σ ρ ε) (recalc : Bool) (st : σ) (c : Nat × Nat) :
    ∀ ev ∈ (runOnSlice E recalc st c).2.2,
      ev = Event.rmtreeSlice c ∨ ev = Event.skip c ∨
      ev = Event.processCall c ∨ ev = Event.writeMask c := by
  intro ev hev
  rcases runOnSlice_cases E recalc st c with ⟨st0, tr0, htr0, _, hc⟩
  have htr0' : ∀ ev ∈ tr0, ev = Event.rmtreeSlice c := by
    rcases htr0 with h | h <;> subst h <;> simp
  rcases hc with ⟨_, he⟩ | ⟨e, st', _, he⟩ | ⟨st', _, he⟩ <;> rw [he] at hev <;>
    simp only [List.mem_append, List.mem_singleton, List.mem_cons,
      List.not_mem_nil, or_false] at hev
  · rcases hev with hev | hev
    · exact Or.inl (htr0' ev hev)
    · subst hev; simp
  · rcases hev with hev | hev
    · exact Or.inl (htr0' ev hev)
    · subst hev; simp
  · rcases hev with hev | hev | hev
    · exact Or.inl (htr0' ev hev)
    · subst hev; simp
    · subst hev; simp

lemma runOnSlice_mem_false (E : Env σ ρ ε) (st : σ) (c : Nat × Nat) :
    ∀ ev ∈ (runOnSlice E false st c).2.2,
      ev = Event.skip c ∨ ev = Event.processCall c ∨ ev = Event.writeMask c := by
  intro ev hev
  rcases runOnSlice_cases E false st c with ⟨st0, tr0, _, hfalse, hc⟩
  rcases hfalse rfl with ⟨h0, _⟩
  subst h0
  rcases hc with ⟨_, he⟩ | ⟨e, st', _, he⟩ | ⟨st', _, he⟩ <;> rw [he] at hev <;>
    simp only [List.nil_append, List.mem_singleton, List.mem_cons,
      List.not_mem_nil, or_false] at hev
  · subst hev; simp
  · subst hev; simp
  · rcases hev with hev | hev <;> (subst hev; simp)

lemma runOnSlice_count_processCall (E : Env σ ρ ε) (recalc : Bool) (st : σ)
    (c0 c : Nat × Nat) :
    ((runOnSlice E recalc st c0).2.2).count (Event.processCall c) ≤ 1 ∧
    (c ≠ c0 → ((runOnSlice E recalc st c0).2.2).count (Event.processCall c) = 0) := by
  rcases runOnSlice_cases E recalc st c0 with ⟨st0, tr0, htr0, _, hc⟩
  have htr0c : tr0.count (Event.processCall c) = 0 := by
    rcases htr0 with h | h <;> subst h <;> simp
  by_cases hcc : c = c0
  · subst hcc
    refine ⟨?_, fun hne => absurd rfl hne⟩
    rcases hc with ⟨_, he⟩ | ⟨e, st', _, he⟩ | ⟨st', _, he⟩ <;> rw [he] <;>
      simp [List.count_append, htr0c, List.count_cons, List.count_singleton]
  · have hne' : ¬(Event.processCall c0 = Event.processCall c) := by
      simp
      intro h
      exact hcc h.symm
    rcases hc with ⟨_, he⟩ | ⟨e, st', _, he⟩ | ⟨st', _, he⟩ <;> rw [he] <;>
      simp [List.count_append, htr0c, List.count_cons, List.count_singleton, hne']

lemma runChunks_mem (E : Env σ ρ ε) (recalc : Bool) :
    ∀ (cs : List (Nat × Nat)) (st : σ), ∀ ev ∈ (runChunks E recalc cs st).2.2,
      ∃ c ∈ cs, ev = Event.rmtreeSlice c ∨ ev = Event.skip c ∨
        ev = Event.processCall c ∨ ev = Event.writeMask c := by
  intro cs
  induction cs with
  | nil => intro st ev hev; simp [runChunks] at hev
  | cons c0 cs ih =>
    intro st ev hev
    simp only [runChunks] at hev
    by_cases hg : c0.1 < c0.2
    · rw [if_pos hg] at hev
      rcases hs : runOnSlice E recalc st c0 with ⟨oe, st', tr⟩
      rw [hs] at hev
      cases oe with
      | some e =>
        simp only at hev
        have := runOnSlice_mem E recalc st c0 ev (by rw [hs]; exact hev)
        exact ⟨c0, by simp, this⟩
      | none =>
        simp only [List.mem_append] at hev
        rcases hev with hev | hev
        · have := runOnSlice_mem E recalc st c0 ev (by rw [hs]; exact hev)
          exact ⟨c0, by simp, this⟩
        · rcases ih st' ev hev with ⟨c, hcs, hshape⟩
          exact ⟨c, by simp [hcs], hshape⟩
    · rw [if_neg hg] at hev
      rcases ih st ev hev with ⟨c, hcs, hshape⟩
      exact ⟨c, by simp [hcs], hshape⟩

lemma runChunks_mem_false (E : Env σ ρ ε) :
    ∀ (cs : List (Nat × Nat)) (st : σ), ∀ ev ∈ (runChunks E false cs st).2.2,
      ∃ c ∈ cs, ev = Event.skip c ∨ ev = Event.processCall c ∨ ev = Event.writeMask c := by
  intro cs
  induction cs with
  | nil => intro st ev hev; simp [runChunks] at hev
  | cons c0 cs ih =>
    intro st ev hev
    simp only [runChunks] at hev
    by_cases hg : c0.1 < c0.2
    · rw [if_pos hg] at hev
      rcases hs : runOnSlice E false st c0 with ⟨oe, st', tr⟩
      rw [hs] at hev
      cases oe with
      | some e =>
        simp only at hev
        have := runOnSlice_mem_false E st c0 ev (by rw [hs]; exact hev)
        exact ⟨c0, by simp, this⟩
      | none =>
        simp only [List.mem_append] at hev
        rcases hev with hev | hev
        · have := runOnSlice_mem_false E st c0 ev (by rw [hs]; exact hev)
          exact ⟨c0, by simp, this⟩
        · rcases ih st' ev hev with ⟨c, hcs, hshape⟩
          exact ⟨c, by simp [hcs], hshape⟩
    · rw [if_neg hg] at hev
      rcases ih st ev hev with ⟨c, hcs, hshape⟩
      exact ⟨c, by simp [hcs], hshape⟩

lemma runChunks_processCall_not_mem (E : Env σ ρ ε) (recalc : Bool)
    (cs : List (Nat × Nat)) (st : σ) (c : Nat × Nat) (hc : c ∉ cs) :
    Event.processCall c ∉ (runChunks E recalc cs st).2.2 := by
  intro hmem
  rcases runChunks_mem E recalc cs st _ hmem with ⟨c', hc', hshape⟩
  rcases hshape with h | h | h | h <;> simp at h
  exact hc (h ▸ hc')

lemma runChunks_count_processCall (E : Env σ ρ ε) (recalc : Bool) :
    ∀ (cs : List (Nat × Nat)), cs.Nodup → ∀ (st : σ) (c : Nat × Nat),
      ((runChunks E recalc cs st).2.2).count (Event.processCall c) ≤ 1 := by
  intro cs
  induction cs with
  | nil => intro _ st c; simp [runChunks]
  | cons c0 cs ih =>
    intro hnd st c
    rw [List.nodup_cons] at hnd
    simp only [runChunks]
    by_cases hg : c0.1 < c0.2
    · rw [if_pos hg]
      rcases hs : runOnSlice E recalc st c0 with ⟨oe, st', tr⟩
      have hcnt := runOnSlice_count_processCall E recalc st c0 c
      rw [hs] at hcnt
      dsimp only at hcnt
      cases oe with
      | some e => exact hcnt.1
      | none =>
        simp only [List.count_append]
        by_cases hcc : c = c0
        · subst hcc
          have h0 : ((runChunks E recalc cs st').2.2).count (Event.processCall c) = 0 := by
            rw [List.count_eq_zero]
            exact runChunks_processCall_not_mem E recalc cs st' c hnd.1
          omega
        · have h0 := hcnt.2 hcc
          have h1 := ih hnd.2 st' c
          omega
    · rw [if_neg hg]
      exact ih hnd.2 st c

lemma runOnSlice_error_getLast (E : Env σ ρ ε) (recalc : Bool) (st : σ)
    (c0 : Nat × Nat) (e : ε) (h : (runOnSlice E recalc st c0).1 = some e) :
    ((runOnSlice E recalc st c0).2.2).getLast? = some (Event.processCall c0) := by
  rcases runOnSlice_cases E recalc st c0 with ⟨st0, tr0, _, _, hc⟩
  rcases hc with ⟨_, he⟩ | ⟨e2, st2, _, he⟩ | ⟨st2, _, he⟩ <;> rw [he] at h ⊢
  · simp at h
  · exact List.getLast?_concat _
  · simp at h

lemma runChunks_error_getLast (E : Env σ ρ ε) (recalc : Bool) :
    ∀ (cs : List (Nat × Nat)) (st : σ) (e : ε),
      (runChunks E recalc cs st).1 = some e →
      ∃ c, ((runChunks E recalc cs st).2.2).getLast? = some (Event.processCall c) := by
  intro cs
  induction cs with
  | nil => intro st e he; simp [runChunks] at he
  | cons c0 cs ih =>
    intro st e he
    simp only [runChunks] at he ⊢
    by_cases hg : c0.1 < c0.2
    · rw [if_pos hg] at he ⊢
      rcases hs : runOnSlice E recalc st c0 with ⟨oe, st', tr⟩
      rw [hs] at he
      cases oe with
      | some e' =>
        refine ⟨c0, ?_⟩
        have hl := runOnSlice_error_getLast E recalc st c0 e' (by rw [hs])
        rw [hs] at hl
        exact hl
      | none =>
        simp only at he
        rcases ih st' e he with ⟨c, hlast⟩
        refine ⟨c, ?_⟩
        have hne : (runChunks E recalc cs st').2.2 ≠ [] := by
          intro h0
          rw [h0] at hlast
          simp at hlast
        simp only
        rw [List.getLast?_append_of_ne_nil _ hne]
        exact hlast
    · rw [if_neg hg] at he ⊢
      exact ih st e he

lemma runChunks_rmtreeChunks_not_mem (E : Env σ ρ ε) (recalc : Bool)
    (cs : List (Nat × Nat)) (st : σ) :
    Event.rmtreeChunks ∉ (runChunks E recalc cs st).2.2 := by
  intro hmem
  rcases runChunks_mem E recalc cs st _ hmem with ⟨c, _, h⟩
  rcases h with h | h | h | h <;> simp at h

lemma runChunks_combineCall_not_mem (E : Env σ ρ ε) (recalc : Bool)
    (cs : List (Nat × Nat)) (st : σ) :
    Event.combineCall ∉ (runChunks E recalc cs st).2.2 := by
  intro hmem
  rcases runChunks_mem E recalc cs st _ hmem with ⟨c, _, h⟩
  rcases h with h | h | h | h <;> simp at h

lemma runChunks_rmtreeSlice_not_mem (E : Env σ ρ ε)
    (cs : List (Nat × Nat)) (st : σ) (c : Nat × Nat) :
    Event.rmtreeSlice c ∉ (runChunks E false cs st).2.2 := by
  intro hmem
  rcases runChunks_mem_false E cs st _ hmem with ⟨c', _, h⟩
  rcases h with h | h | h <;> simp at h

lemma run_eq_of_chunks_error (E : Env σ ρ ε) (recalc : Bool) (total nmr : Nat)
    (st : σ) (e : ε) (st' : σ) (tr : List Event)
    (h : runChunks E recalc (chunksGenerator total nmr) (E.prepareChunkDir st recalc) =
      (some e, st', tr)) :
    run E recalc total nmr st = (Except.error e, st', Event.prepare :: tr) := by
  unfold run
  dsimp only
  rw [h]

lemma run_eq_of_combine_error (E : Env σ ρ ε) (recalc : Bool) (total nmr : Nat)
    (st : σ) (st' : σ) (tr : List Event) (e : ε) (st'' : σ)
    (h1 : runChunks E recalc (chunksGenerator total nmr) (E.prepareChunkDir st recalc) =
      (none, st', tr))
    (h2 : E.combine st' = (Except.error e, st'')) :
    run E recalc total nmr st =
      (Except.error e, st'', Event.prepare :: (tr ++ [Event.combineCall])) := by
  unfold run
  dsimp only
  rw [h1]
  dsimp only
  rw [h2]

lemma run_eq_of_combine_ok (E : Env σ ρ ε) (recalc : Bool) (total nmr : Nat)
    (st : σ) (st' : σ) (tr : List Event) (r : ρ) (st'' : σ)
    (h1 : runChunks E recalc (chunksGenerator total nmr) (E.prepareChunkDir st recalc) =
      (none, st', tr))
    (h2 : E.combine st' = (Except.ok r, st'')) :
    run E recalc total nmr st =
      (Except.ok r, E.rmtreeChunksDir st'',
        Event.prepare :: (tr ++ [Event.combineCall, Event.rmtreeChunks])) := by
  unfold run
  dsimp only
  rw [h1]
  dsimp only
  rw [h2]

/-- C3, as stated by the spec: a worker `process` failure on any chunk
propagates out of `run` (the failing call is the last collaborator request, no
retries happen), the chunks directory is not deleted on any failure (so
already-completed chunk directories stay on disk: without `recalculate` no
slice directory is ever removed either), a `combine` failure likewise leaves
the chunks directory intact, and the chunks directory is removed exactly when
`combine` returns successfully, as the final operation. -/
def RunFailureSpec : Prop :=
  ∀ (σ ρ ε : Type) (E : Env σ ρ ε) (recalc : Bool) (total nmr : Nat) (st : σ),
    (Event.rmtreeChunks ∈ (run E recalc total nmr st).2.2 ↔
      ∃ r, (run E recalc total nmr st).1 = Except.ok r) ∧
    (0 < nmr → ∀ c, ((run E recalc total nmr st).2.2).count (Event.processCall c) ≤ 1) ∧
    (∀ e, (run E recalc total nmr st).1 = Except.error e →
      ((run E recalc total nmr st).2.2).getLast? = some Event.combineCall ∨
      ∃ c, ((run E recalc total nmr st).2.2).getLast? = some (Event.processCall c)) ∧
    (∀ r, (run E recalc total nmr st).1 = Except.ok r →
      ∃ tr, (run E recalc total nmr st).2.2 =
        tr ++ [Event.combineCall, Event.rmtreeChunks]) ∧
    (recalc = false → ∀ c, Event.rmtreeSlice c ∉ (run E recalc total nmr st).2.2)

/-- C3: worker failures propagate out of `VoxelRange.run` with no retries and
abort the run; completed chunk directories are left intact on failure; a
`combine` failure leaves the chunks directory intact; the chunks directory is
deleted only after `combine` returns successfully. -/
theorem run_failure_semantics : RunFailureSpec := by
  intro σ ρ ε E recalc total nmr st
  rcases hrc : runChunks E recalc (chunksGenerator total nmr)
      (E.prepareChunkDir st recalc) with ⟨oe, st', tr⟩
  have htr_rc : Event.rmtreeChunks ∉ tr := by
    have := runChunks_rmtreeChunks_not_mem E recalc (chunksGenerator total nmr)
      (E.prepareChunkDir st recalc)
    rw [hrc] at this
    exact this
  have htr_cnt : 0 < nmr → ∀ c, tr.count (Event.processCall c) ≤ 1 := by
    intro hn c
    have := runChunks_count_processCall E recalc (chunksGenerator total nmr)
      (chunksGenerator_nodup total nmr hn) (E.prepareChunkDir st recalc) c
    rw [hrc] at this
    exact this
  have htr_rs : recalc = false → ∀ c, Event.rmtreeSlice c ∉ tr := by
    intro hf c
    subst hf
    have := runChunks_rmtreeSlice_not_mem E (chunksGenerator total nmr)
      (E.prepareChunkDir st false) c
    rw [hrc] at this
    exact this
  cases oe with
  | some e =>
    rw [run_eq_of_chunks_error E recalc total nmr st e st' tr hrc]
    have htr_last : ∃ c, tr.getLast? = some (Event.processCall c) := by
      have := runChunks_error_getLast E recalc (chunksGenerator total nmr)
        (E.prepareChunkDir st recalc) e
      rw [hrc] at this
      exact this rfl
    refine ⟨?_, ?_, ?_, ?_, ?_⟩
    · simp only
      constructor
      · intro hmem
        rcases List.mem_cons.mp hmem with h | h
        · exact absurd h (by simp)
        · exact absurd h htr_rc
      · rintro ⟨r, hr⟩
        simp at hr
    · intro hn c
      simp only [List.count_cons]
      have := htr_cnt hn c
      simp
      omega
    · intro e' _
      refine Or.inr ?_
      rcases htr_last with ⟨c, hc⟩
      refine ⟨c, ?_⟩
      have hne : tr ≠ [] := by
        intro h0
        rw [h0] at hc
        simp at hc
      have : Event.prepare :: tr = [Event.prepare] ++ tr := rfl
      rw [this, List.getLast?_append_of_ne_nil _ hne]
      exact hc
    · intro r hr
      simp at hr
    · intro hf c
      simp only [List.mem_cons]
      rintro (h | h)
      · exact absurd h (by simp)
      · exact absurd h (htr_rs hf c)
  | none =>
    rcases hcb : E.combine st' with ⟨res, st''⟩
    cases res with
    | error e =>
      rw [run_eq_of_combine_error E recalc total nmr st st' tr e st'' hrc hcb]
      refine ⟨?_, ?_, ?_, ?_, ?_⟩
      · simp only
        constructor
        · intro hmem
          rcases List.mem_cons.mp hmem with h | h
          · exact absurd h (by simp)
          · rcases List.mem_append.mp h with h' | h'
            · exact absurd h' htr_rc
            · simp at h'
        · rintro ⟨r, hr⟩
          simp at hr
      · intro hn c
        simp only [List.count_cons, List.count_append]
        have := htr_cnt hn c
        simp
        omega
      · intro e' _
        refine Or.inl ?_
        have : Event.prepare :: (tr ++ [Event.combineCall]) =
            (Event.prepare :: tr) ++ [Event.combineCall] := rfl
        rw [this]
        exact List.getLast?_concat _
      · intro r hr
        simp at hr
      · intro hf c
        simp only [List.mem_cons, List.mem_append]
        rintro (h | h | h)
        · exact absurd h (by simp)
        · exact absurd h (htr_rs hf c)
        · simp at h
    | ok r =>
      rw [run_eq_of_combine_ok E recalc total nmr st st' tr r st'' hrc hcb]
      refine ⟨?_, ?_, ?_, ?_, ?_⟩
      · simp only
        constructor
        · intro _
          exact ⟨r, rfl⟩
        · intro _
          simp
      · intro hn c
        simp only [List.count_cons, List.count_append]
        have := htr_cnt hn c
        simp
        omega
      · intro e' he'
        simp at he'
      · intro r' _
        refine ⟨Event.prepare :: tr, rfl⟩
      · intro hf c
        simp only [List.mem_cons, List.mem_append]
        rintro (h | h | h)
        · exact absurd h (by simp)
        · exact absurd h (htr_rs hf c)
        · simp at h

/-- Witness for C3: under the always-failing worker `CEfail` on one chunk, the
failure propagates and the chunks directory is never removed. -/
theorem run_failure_semantics_witness :
    (run CEfail false 1 1 ([] : List (Nat × Nat))).1 = Except.error () ∧
    Event.rmtreeChunks ∉ (run CEfail false 1 1 ([] : List (Nat × Nat))).2.2 ∧
    ((run CEfail false 1 1 ([] : List (Nat × Nat))).2.2).getLast? =
      some (Event.processCall (0, 1)) := by
  refine ⟨rfl, ?_, by decide⟩
  intro hmem
  have h := (run_failure_semantics (List (Nat × Nat)) (List (Nat × Nat)) Unit
    CEfail false 1 1 []).1
  rcases h.mp hmem with ⟨r, hr⟩
  have : (run CEfail false 1 1 ([] : List (Nat × Nat))).1 = Except.error () := rfl
  rw [this] at hr
  exact absurd hr (by simp)

lemma runChunks_all_exist (E : Env σ ρ ε) :
    ∀ (cs : List (Nat × Nat)) (st : σ),
      (∀ c ∈ cs, E.outputExists st c = true) →
      runChunks E false cs st =
        (none, st, (cs.filter (fun c => decide (c.1 < c.2))).map Event.skip) := by
  intro cs
  induction cs with
  | nil => intro st _; simp [runChunks]
  | cons c0 cs ih =>
    intro st h
    simp only [runChunks]
    by_cases hg : c0.1 < c0.2
    · rw [if_pos hg, runOnSlice_skip E st c0 (h c0 (by simp))]
      dsimp only
      rw [ih st (fun c hc => h c (by simp [hc]))]
      simp [hg]
    · rw [if_neg hg]
      rw [ih st (fun c hc => h c (by simp [hc]))]
      simp [hg]

lemma run_all_exist_no_process (E : Env σ ρ ε) (total nmr : Nat) (st : σ)
    (h : ∀ c ∈ chunksGenerator total nmr,
      E.outputExists (E.prepareChunkDir st false) c = true) :
    ∀ c, Event.processCall c ∉ (run E false total nmr st).2.2 := by
  intro c
  have hrc := runChunks_all_exist E (chunksGenerator total nmr)
    (E.prepareChunkDir st false) h
  have hskips : ∀ ev ∈ (((chunksGenerator total nmr).filter
      (fun c => decide (c.1 < c.2))).map Event.skip), ∃ c', ev = Event.skip c' := by
    intro ev hev
    rcases List.mem_map.mp hev with ⟨c', _, hc'⟩
    exact ⟨c', hc'.symm⟩
  rcases hcb : E.combine (E.prepareChunkDir st false) with ⟨res, st''⟩
  cases res with
  | error e =>
    rw [run_eq_of_combine_error E false total nmr st _ _ e st'' hrc hcb]
    simp only [List.mem_cons, List.mem_append]
    rintro (hmem | hmem | hmem)
    · exact absurd hmem (by simp)
    · rcases hskips _ hmem with ⟨c', hc'⟩
      simp at hc'
    · simp at hmem
  | ok r =>
    rw [run_eq_of_combine_ok E false total nmr st _ _ r st'' hrc hcb]
    simp only [List.mem_cons, List.mem_append]
    rintro (hmem | hmem | hmem)
    · exact absurd hmem (by simp)
    · rcases hskips _ hmem with ⟨c', hc'⟩
      simp at hc'
    · simp at hmem

lemma runChunks_CE_none : ∀ (cs : List (Nat × Nat)) (st : List (Nat × Nat)),
    (runChunks CE false cs st).1 = none := by
  intro cs
  induction cs with
  | nil => intro st; rfl
  | cons c0 cs ih =>
    intro st
    simp only [runChunks]
    by_cases hg : c0.1 < c0.2
    · rw [if_pos hg]
      by_cases hmem : c0 ∈ st
      · rw [runOnSlice_skip CE st c0 (by simp [CE, hmem])]
        exact ih st
      · have hro : runOnSlice CE false st c0 =
            (none, c0 :: st, [Event.processCall c0, Event.writeMask c0]) := by
          simp [runOnSlice, CE, hmem]
        rw [hro]
        exact ih (c0 :: st)
    · rw [if_neg hg]
      exact ih st

lemma run_CE_final_state (total nmr : Nat) (st : List (Nat × Nat)) :
    (∃ r, (run CE false total nmr st).1 = Except.ok r) ∧
    (run CE false total nmr st).2.1 = [] := by
  have hprep : CE.prepareChunkDir st false = st := rfl
  rcases hrc : runChunks CE false (chunksGenerator total nmr) st with ⟨oe, st', tr⟩
  have hnone : oe = none := by
    have := runChunks_CE_none (chunksGenerator total nmr) st
    rw [hrc] at this
    exact this
  subst hnone
  have hcb : CE.combine st' = (Except.ok st', st') := rfl
  have := run_eq_of_combine_ok CE false total nmr st st' tr st' st'
    (by rw [hprep]; exact hrc) hcb
  rw [this]
  exact ⟨⟨st', rfl⟩, rfl⟩

lemma runChunks_CE_processes_all :
    ∀ (cs : List (Nat × Nat)) (st : List (Nat × Nat)), cs.Nodup →
      (∀ c ∈ cs, c ∉ st) → (∀ c ∈ cs, c.1 < c.2) →
      ∀ c ∈ cs, Event.processCall c ∈ (runChunks CE false cs st).2.2 := by
  intro cs
  induction cs with
  | nil => simp
  | cons c0 cs ih =>
    intro st hnd hdisj hpos c hc
    rw [List.nodup_cons] at hnd
    simp only [runChunks]
    rw [if_pos (hpos c0 (by simp))]
    have hmem : c0 ∉ st := hdisj c0 (by simp)
    have hro : runOnSlice CE false st c0 =
        (none, c0 :: st, [Event.processCall c0, Event.writeMask c0]) := by
      simp [runOnSlice, CE, hmem]
    rw [hro]
    dsimp only
    rw [List.mem_append]
    rcases List.mem_cons.mp hc with hc0 | hcs
    · subst hc0
      exact Or.inl (by simp)
    · refine Or.inr ?_
      refine ih (c0 :: st) hnd.2 ?_ (fun c' hc' => hpos c' (by simp [hc'])) c hcs
      intro c' hc'
      simp only [List.mem_cons]
      rintro (h | h)
      · exact hnd.1 (h ▸ hc')
      · exact hdisj c' (by simp [hc']) h

lemma run_CE_processes_all (total nmr : Nat) (h : 0 < nmr) :
    ∀ c ∈ chunksGenerator total nmr,
      Event.processCall c ∈ (run CE false total nmr ([] : List (Nat × Nat))).2.2 := by
  intro c hc
  have hprep : CE.prepareChunkDir [] false = ([] : List (Nat × Nat)) := rfl
  rcases hrc : runChunks CE false (chunksGenerator total nmr)
      ([] : List (Nat × Nat)) with ⟨oe, st', tr⟩
  have hnone : oe = none := by
    have := runChunks_CE_none (chunksGenerator total nmr) []
    rw [hrc] at this
    exact this
  subst hnone
  have hmem : Event.processCall c ∈ tr := by
    have := runChunks_CE_processes_all (chunksGenerator total nmr) [] 
      (chunksGenerator_nodup total nmr h) (by simp)
      (chunksGenerator_pos total nmr h) c hc
    rw [hrc] at this
    exact this
  have hcb : CE.combine st' = (Except.ok st', st') := rfl
  have heq := run_eq_of_combine_ok CE false total nmr [] st' tr st' st'
    (by rw [hprep]; exact hrc) hcb
  rw [heq]
  simp [hmem]

/-- C2 as amended: a chunk whose output the worker reports as existing is
skipped (its `process` is not invoked, the state is untouched); when the
output of every chunk is reported as existing the whole run performs zero `process`
calls; but a successful run deletes the chunks directory after merging, so a
second complete run (in the concrete collaborator model `CE`, where output
existence is determined by the chunk directories) starts from a state with no
chunk output and invokes `process` for every chunk again. -/
def RunSkipSpec : Prop :=
  (∀ (σ ρ ε : Type) (E : Env σ ρ ε) (st : σ) (c : Nat × Nat),
      E.outputExists st c = true →
      runOnSlice E false st c = (none, st, [Event.skip c])) ∧
  (∀ (σ ρ ε : Type) (E : Env σ ρ ε) (total nmr : Nat) (st : σ),
      (∀ c ∈ chunksGenerator total nmr,
          E.outputExists (E.prepareChunkDir st false) c = true) →
      ∀ c, Event.processCall c ∉ (run E false total nmr st).2.2) ∧
  (∀ total nmr : Nat, 0 < nmr → ∀ st : List (Nat × Nat),
      (∃ r, (run CE false total nmr st).1 = Except.ok r) ∧
      (run CE false total nmr st).2.1 = [] ∧
      run CE false total nmr ((run CE false total nmr st).2.1) =
        run CE false total nmr [] ∧
      ∀ c ∈ chunksGenerator total nmr,
        Event.processCall c ∈ (run CE false total nmr []).2.2)

/-- C2 (amended): `worker.output_exists` short-circuits `worker.process` per
chunk, and a run whose chunks all have existing output makes no `process`
call; a second run after a successful merge re-processes every chunk, because
`run` removes the chunks directory after a successful `combine`. -/
theorem run_skip_existing : RunSkipSpec := by
  refine ⟨?_, ?_, ?_⟩
  · intro σ ρ ε E st c h
    exact runOnSlice_skip E st c h
  · intro σ ρ ε E total nmr st h
    exact run_all_exist_no_process E total nmr st h
  · intro total nmr h st
    rcases run_CE_final_state total nmr st with ⟨hok, hfin⟩
    refine ⟨hok, hfin, by rw [hfin], run_CE_processes_all total nmr h⟩

/-- Counterexample to C2 as stated: with the concrete collaborators `CE`
(worker output existence = chunk directory present, one chunk), the first run
succeeds and, the chunks directory having been deleted after the merge, the
second run without `recalculate` invokes `worker.process` on its chunk again:
the second run performs one `process` call, not zero. -/
theorem run_twice_counterexample :
    (run CE false 1 1 ([] : List (Nat × Nat))).1 = Except.ok [(0, 1)] ∧
    (run CE false 1 1 ([] : List (Nat × Nat))).2.1 = [] ∧
    Event.processCall (0, 1) ∈
      (run CE false 1 1 ((run CE false 1 1 ([] : List (Nat × Nat))).2.1)).2.2 :=
  ⟨rfl, rfl, by decide⟩

/-- Witness for C2 (amended) at a two-chunk instance. -/
theorem run_skip_existing_witness :
    runOnSlice CE false [(0, 1)] (0, 1) = (none, [(0, 1)], [Event.skip (0, 1)]) ∧
    (∀ c, Event.processCall c ∉ (run CE false 1 1 [(0, 1)]).2.2) ∧
    Event.processCall (0, 2) ∈ (run CE false 2 2 ([] : List (Nat × Nat))).2.2 := by
  refine ⟨?_, ?_, ?_⟩
  · exact run_skip_existing.1 (List (Nat × Nat)) (List (Nat × Nat)) Unit CE
      [(0, 1)] (0, 1) (by decide)
  · exact run_skip_existing.2.1 (List (Nat × Nat)) (List (Nat × Nat)) Unit CE
      1 1 [(0, 1)] (by decide)
  · exact (run_skip_existing.2.2 2 2 (by decide) []).2.2.2 (0, 2) (by decide)

/-! ## SelectedSubjects (batch_utils.py)

Python source:
    def get_selection(self, subjects):
        starting_pos = self._get_starting_pos(subjects)
        if self.indices is None and self.subject_ids is None:
            return subjects[starting_pos:]
        if self.indices:
            subjects = [subject for ind, subject in enumerate(subjects)
                        if ind in self.indices and ind >= starting_pos]
        if self.subject_ids:
            subjects = list(filter(lambda subject: subject.subject_id in self.subject_ids, subjects))
        return subjects

    def _get_starting_pos(self, subjects):
        if self.start_from is None:
            return 0
        if isinstance(self.start_from, six.string_types):
            for ind, subject in enumerate(subjects):
                if subject.subject_id == self.start_from:
                    return ind
        for ind, subject in enumerate(subjects):
            if ind == int(self.start_from):
                return ind

Only `subject.subject_id` is consulted, so a subject is embedded as its id
string.  Falling off the end of `_get_starting_pos` returns Python `None`,
embedded as `Option.none`; `int()` on a non-numeric string raises, embedded as
`Except.error`. -/

inductive StartFrom
  | str (s : String)
  | int (i : Int)
deriving DecidableEq

structure SelectedSubjects where
  subject_ids : Option (List String)
  indices : Option (List Nat)
  start_from : Option StartFrom
deriving DecidableEq

/-- Python truthiness of an optional list (`None` and the empty list are falsy). -/
def pyTruthyList {α : Type} : Option (List α) → Bool
  | none => false
  | some l => !l.isEmpty

/-- Python `int(x)` on a `start_from` value: identity on ints, numeric parsing
on strings, raising `ValueError` (an error here) on non-numeric strings. -/
def pyInt : StartFrom → Except Unit Int
  | StartFrom.str s =>
    match s.toInt? with
    | some i => Except.ok i
    | none => Except.error ()
  | StartFrom.int i => Except.ok i

def _get_starting_pos (start_from : Option StartFrom) (subjects : List String) :
    Except Unit (Option Nat) :=
  match start_from with
  | none => Except.ok (some 0)
  | some sf =>
    let strHit : Option Nat :=
      match sf with
      | StartFrom.str s => subjects.findIdx? (fun subj => subj = s)
      | StartFrom.int _ => none
    match strHit with
    | some ind => Except.ok (some ind)
    | none =>
      match pyInt sf with
      | Except.error e => Except.error e
      | Except.ok k =>
        Except.ok ((List.range subjects.length).find? (fun ind => (ind : Int) = k))

/-- Python slicing `subjects[starting_pos:]` where `starting_pos` is either a
non-negative index or `None` (`None` slices from the beginning). -/
def pySliceFrom {α : Type} (l : List α) : Option Nat → List α
  | none => l
  | some k => l.drop k

/-- The `if self.indices:` branch of `get_selection`.  Comparing
`ind >= None` raises `TypeError` in Python 3; the conjunction short-circuits,
so that comparison is only reached when `ind` is in `indices`. -/
def indicesFilter (indices : List Nat) (startingPos : Option Nat) :
    List (Nat × String) → Except Unit (List String)
  | [] => Except.ok []
  | (ind, subj) :: rest =>
    if ind ∈ indices then
      match startingPos with
      | none => Except.error ()
      | some p =>
        match indicesFilter indices startingPos rest with
        | Except.error e => Except.error e
        | Except.ok tail => Except.ok (if p ≤ ind then subj :: tail else tail)
    else indicesFilter indices startingPos rest

def get_selection (sel : SelectedSubjects) (subjects : List String) :
    Except Unit (List String) :=
  match _get_starting_pos sel.start_from subjects with
  | Except.error e => Except.error e
  | Except.ok starting_pos =>
    if sel.indices = none ∧ sel.subject_ids = none then
      Except.ok (pySliceFrom subjects starting_pos)
    else
      let step1 : Except Unit (List String) :=
        if pyTruthyList sel.indices then
          indicesFilter (sel.indices.getD []) starting_pos subjects.enum
        else Except.ok subjects
      match step1 with
      | Except.error e => Except.error e
      | Except.ok subjects2 =>
        Except.ok
          (if pyTruthyList sel.subject_ids then
            subjects2.filter (fun subj => subj ∈ sel.subject_ids.getD [])
          else subjects2)

/-- C5: the code contradicts its own docstring (and the spec): with
subject ids `["s1","s3"]` and start_from `"s2"` over subjects
`["s1","s2","s3","s4"]`, `get_selection` returns `["s1","s3"]` — the
start position (index 1, as `_get_starting_pos` confirms) is never applied
when only `subject_ids` is given, so `"s1"` is not excluded even though the
documented intersection semantics would yield `["s3"]`. -/
theorem selected_subjects_failing_input :
    get_selection ⟨some ["s1", "s3"], none, some (StartFrom.str "s2")⟩
      ["s1", "s2", "s3", "s4"] = Except.ok ["s1", "s3"] ∧
    _get_starting_pos (some (StartFrom.str "s2")) ["s1", "s2", "s3", "s4"] =
      Except.ok (some 1) :=
  ⟨rfl, rfl⟩

/-- C10: with `indices = None`, `subject_ids = None` and an integer
`start_from` that is at least the number of subjects, `_get_starting_pos`
falls through both loops and returns `None`, and `get_selection` then returns
the whole input list: the slice `subjects[None:]` is the complete list. -/
theorem get_selection_start_from_overflow (subjects : List String) (k : Int)
    (hne : subjects ≠ []) (hk : (subjects.length : Int) ≤ k) :
    _get_starting_pos (some (StartFrom.int k)) subjects = Except.ok none ∧
    get_selection ⟨none, none, some (StartFrom.int k)⟩ subjects =
      Except.ok subjects := by
  have hfind : (List.range subjects.length).find?
      (fun ind : Nat => decide ((ind : Int) = k)) = none := by
    apply List.find?_eq_none.mpr
    intro x hx
    rw [List.mem_range] at hx
    simp only [decide_eq_true_eq]
    intro hxk
    omega
  have hpos : _get_starting_pos (some (StartFrom.int k)) subjects =
      Except.ok none := by
    simp only [_get_starting_pos, pyInt]
    rw [hfind]
  refine ⟨hpos, ?_⟩
  simp only [get_selection, hpos]
  simp [pySliceFrom]

/-- Witness for C10 at a one-subject list and `k = 5`. -/
theorem get_selection_start_from_overflow_witness :
    (["a"] : List String) ≠ [] ∧ ((1 : Nat) : Int) ≤ 5 ∧
    (_get_starting_pos (some (StartFrom.int 5)) ["a"] = Except.ok none ∧
      get_selection ⟨none, none, some (StartFrom.int 5)⟩ ["a"] =
        Except.ok ["a"]) :=
  ⟨by decide, by decide,
    get_selection_start_from_overflow ["a"] 5 (by decide) (by decide)⟩
/-! ## SimpleBatchProfile discovery caching (batch_utils.py)

Python source:
    def get_subjects(self):
        if not self._subjects_found:
            self._subjects_found = self._get_subjects()
        return self._subjects_found

    def profile_suitable(self):
        if not self._subjects_found:
            self._subjects_found = self._get_subjects()
        return len(self._subjects_found) > 0

    def get_subjects_count(self):
        if not self._subjects_found:
            self._subjects_found = self._get_subjects()
        return len(self._subjects_found)

    @output_base_dir.setter
    def output_base_dir(self, output_base_dir):
        self._output_base_dir = output_base_dir
        self._subjects_found = None

    @output_sub_dir.setter
    def output_sub_dir(self, output_sub_dir):
        self._output_sub_dir = output_sub_dir
        self._subjects_found = None

The mutable object state is threaded explicitly; the abstract layout-specific
hook `_get_subjects` (overridden by concrete profiles, its result fixed within
one configuration) is the parameter `discover`; each operation returns its
result, the new state, and how many times it invoked `_get_subjects`.
`not self._subjects_found` is Python truthiness: `None` and `[]` are falsy. -/

structure ProfileState where
  subjects_found : Option (List String)
  output_base_dir : String
  output_sub_dir : Option String
deriving DecidableEq

def get_subjects (discover : List String) (st : ProfileState) :
    List String × ProfileState × Nat :=
  if !pyTruthyList st.subjects_found then
    (discover, { st with subjects_found := some discover }, 1)
  else (st.subjects_found.getD [], st, 0)

def profile_suitable (discover : List String) (st : ProfileState) :
    Bool × ProfileState × Nat :=
  if !pyTruthyList st.subjects_found then
    (decide (0 < discover.length), { st with subjects_found := some discover }, 1)
  else (decide (0 < (st.subjects_found.getD []).length), st, 0)

def get_subjects_count (discover : List String) (st : ProfileState) :
    Nat × ProfileState × Nat :=
  if !pyTruthyList st.subjects_found then
    (discover.length, { st with subjects_found := some discover }, 1)
  else ((st.subjects_found.getD []).length, st, 0)

def set_output_base_dir (st : ProfileState) (v : String) : ProfileState :=
  { st with output_base_dir := v, subjects_found := none }

def set_output_sub_dir (st : ProfileState) (v : Option String) : ProfileState :=
  { st with output_sub_dir := v, subjects_found := none }

/-- C6 as amended: queries on a cached non-empty discovery result re-invoke
nothing and leave the state unchanged; after any query the cache is populated
provided discovery found at least one subject (so discovery runs at most once
in that case); the two output-directory setters clear the cache, and the next
query after a setter re-invokes discovery. -/
def ProfileCacheSpec : Prop :=
  (∀ (discover : List String) (st : ProfileState),
      pyTruthyList st.subjects_found = true →
      get_subjects discover st = (st.subjects_found.getD [], st, 0) ∧
      profile_suitable discover st =
        (decide (0 < (st.subjects_found.getD []).length), st, 0) ∧
      get_subjects_count discover st =
        ((st.subjects_found.getD []).length, st, 0)) ∧
  (∀ (discover : List String) (st : ProfileState), discover ≠ [] →
      pyTruthyList ((get_subjects discover st).2.1).subjects_found = true ∧
      pyTruthyList ((profile_suitable discover st).2.1).subjects_found = true ∧
      pyTruthyList ((get_subjects_count discover st).2.1).subjects_found = true) ∧
  (∀ (st : ProfileState) (v : String) (w : Option String),
      (set_output_base_dir st v).subjects_found = none ∧
      (set_output_sub_dir st w).subjects_found = none) ∧
  (∀ (discover : List String) (st : ProfileState) (v : String) (w : Option String),
      (get_subjects discover (set_output_base_dir st v)).2.2 = 1 ∧
      (get_subjects discover (set_output_sub_dir st w)).2.2 = 1)

/-- C6 (amended): `_get_subjects` runs at most once per configuration provided
it discovers at least one subject — with a non-empty cached result every query
reuses the cache without re-invoking discovery, and setting `output_base_dir`
or `output_sub_dir` clears the cache so the next query re-discovers.  (When
discovery returns an empty list, the falsy `[]` is never accepted as a cache
and every query re-invokes `_get_subjects`.) -/
theorem profile_cache_amended : ProfileCacheSpec := by
  refine ⟨?_, ?_, ?_, ?_⟩
  · intro discover st h
    refine ⟨?_, ?_, ?_⟩ <;>
      simp [get_subjects, profile_suitable, get_subjects_count, h]
  · intro discover st h
    have hd : pyTruthyList (some discover) = true := by
      simp [pyTruthyList]
      intro h0
      exact absurd h0 h
    by_cases hc : pyTruthyList st.subjects_found = true <;>
      refine ⟨?_, ?_, ?_⟩ <;>
      simp [get_subjects, profile_suitable, get_subjects_count, hc, hd]
  · intro st v w
    exact ⟨rfl, rfl⟩
  · intro discover st v w
    refine ⟨?_, ?_⟩ <;>
      simp [get_subjects, set_output_base_dir, set_output_sub_dir, pyTruthyList]

/-- Witness for C6 (amended) at a one-subject discovery result. -/
theorem profile_cache_amended_witness :
    pyTruthyList ((get_subjects ["a"] ⟨none, "output", none⟩).2.1).subjects_found
      = true ∧
    get_subjects ["a"] (get_subjects ["a"] ⟨none, "output", none⟩).2.1 =
      (["a"], (get_subjects ["a"] ⟨none, "output", none⟩).2.1, 0) ∧
    (get_subjects ["a"]
      (set_output_base_dir (get_subjects ["a"] ⟨none, "output", none⟩).2.1
        "out2")).2.2 = 1 := by
  refine ⟨?_, ?_, ?_⟩
  · exact (profile_cache_amended.2.1 ["a"] ⟨none, "output", none⟩ (by decide)).1
  · have h := (profile_cache_amended.1 ["a"]
      (get_subjects ["a"] ⟨none, "output", none⟩).2.1 (by decide)).1
    rw [h]
    rfl
  · exact (profile_cache_amended.2.2.2 ["a"]
      (get_subjects ["a"] ⟨none, "output", none⟩).2.1 "out2" none).1

/-- Counterexample to C6 as stated: when `_get_subjects` discovers zero
subjects, the empty list is falsy, so the result is never cached — a second
`get_subjects` call invokes `_get_subjects` again (invocation count 1 on both
the first and the second call), contradicting discovery running at most once
with further calls reusing the cached subject list. -/
theorem profile_cache_counterexample :
    (get_subjects [] ⟨none, "output", none⟩).2.2 = 1 ∧
    (get_subjects [] (get_subjects [] ⟨none, "output", none⟩).2.1).2.2 = 1 :=
  ⟨rfl, rfl⟩
/-! ## get_best_batch_profile (batch_utils.py)

Python source:
    crawlers = [profile_loader.load(c) for c in profile_loader.list_all()]
    best_crawler = None
    best_subjects_count = 0
    for crawler in crawlers:
        crawler.set_root_dir(data_folder)
        if crawler.profile_suitable():
            tmp_count = crawler.get_subjects_count()
            if tmp_count > best_subjects_count:
                best_crawler = crawler
                best_subjects_count = tmp_count
    return best_crawler

Registered profiles are arbitrary `BatchProfile` implementations; after the
root directory is bound, each is observed only through `profile_suitable()`
and `get_subjects_count()`, so a profile is embedded as that pair of
observations. -/

structure Profile where
  suitable : Bool
  count : Nat
deriving DecidableEq

def gbbpAux : List Profile → Option Profile → Nat → Option Profile
  | [], best, _ => best
  | p :: ps, best, bestCount =>
    if p.suitable then
      if bestCount < p.count then gbbpAux ps (some p) p.count
      else gbbpAux ps best bestCount
    else gbbpAux ps best bestCount

def get_best_batch_profile (ps : List Profile) : Option Profile :=
  gbbpAux ps none 0

/-- The largest subject count among the suitable profiles (0 when none is
suitable). -/
def maxSuitableCount : List Profile → Nat
  | [] => 0
  | p :: ps =>
    if p.suitable then max p.count (maxSuitableCount ps) else maxSuitableCount ps

lemma suitable_count_le_maxSuitableCount :
    ∀ (ps : List Profile), ∀ q ∈ ps, q.suitable = true →
      q.count ≤ maxSuitableCount ps := by
  intro ps
  induction ps with
  | nil => simp
  | cons p ps ih =>
    intro q hq hsq
    rcases List.mem_cons.mp hq with h | h
    · subst h
      simp only [maxSuitableCount, hsq, if_true]
      exact Nat.le_max_left _ _
    · have := ih q h hsq
      by_cases hp : p.suitable <;>
        simp only [maxSuitableCount, hp, if_true, if_false]
      · exact le_trans this (Nat.le_max_right _ _)
      · exact this

lemma gbbpAux_eq (ps : List Profile) :
    ∀ (best : Option Profile) (bc : Nat),
      gbbpAux ps best bc =
        if maxSuitableCount ps ≤ bc then best
        else ps.find?
          (fun p => p.suitable && decide (p.count = maxSuitableCount ps)) := by
  induction ps with
  | nil =>
    intro best bc
    simp [gbbpAux, maxSuitableCount]
  | cons p ps ih =>
    intro best bc
    by_cases hs : p.suitable = true
    · by_cases hlt : bc < p.count
      · rw [gbbpAux]
        rw [if_pos hs, if_pos hlt, ih (some p) p.count]
        have hM : maxSuitableCount (p :: ps) = max p.count (maxSuitableCount ps) := by
          simp [maxSuitableCount, hs]
        by_cases hrec : maxSuitableCount ps ≤ p.count
        · rw [if_pos hrec]
          have h1 : maxSuitableCount (p :: ps) = p.count := by
            rw [hM]
            omega
          rw [if_neg (by omega), h1]
          rw [List.find?_cons_of_pos]
          simp [hs]
        · rw [if_neg hrec]
          have h1 : maxSuitableCount (p :: ps) = maxSuitableCount ps := by
            rw [hM]
            omega
          rw [if_neg (by omega), h1]
          rw [List.find?_cons_of_neg]
          simp only [Bool.and_eq_true, decide_eq_true_eq]
          rintro ⟨_, hcount⟩
          omega
      · rw [gbbpAux]
        rw [if_pos hs, if_neg hlt, ih best bc]
        have hM : maxSuitableCount (p :: ps) = max p.count (maxSuitableCount ps) := by
          simp [maxSuitableCount, hs]
        by_cases hle : maxSuitableCount ps ≤ bc
        · rw [if_pos hle, if_pos (by omega)]
        · rw [if_neg hle, if_neg (by omega)]
          have h1 : maxSuitableCount (p :: ps) = maxSuitableCount ps := by
            rw [hM]
            omega
          rw [h1]
          rw [List.find?_cons_of_neg]
          simp only [Bool.and_eq_true, decide_eq_true_eq]
          rintro ⟨_, hcount⟩
          omega
    · rw [gbbpAux]
      rw [if_neg hs, ih best bc]
      have hM : maxSuitableCount (p :: ps) = maxSuitableCount ps := by
        simp [maxSuitableCount, hs]
      rw [hM]
      by_cases hle : maxSuitableCount ps ≤ bc
      · rw [if_pos hle, if_pos hle]
      · rw [if_neg hle, if_neg hle]
        rw [List.find?_cons_of_neg]
        simp [hs]

lemma maxSuitableCount_eq_zero :
    ∀ (ps : List Profile), maxSuitableCount ps = 0 ↔
      ∀ p ∈ ps, p.suitable = true → p.count = 0 := by
  intro ps
  induction ps with
  | nil => simp [maxSuitableCount]
  | cons p ps ih =>
    constructor
    · intro h q hq hsq
      have hps : maxSuitableCount ps = 0 := by
        by_cases hs : p.suitable = true
        · rw [maxSuitableCount, if_pos hs] at h
          have := Nat.le_max_right p.count (maxSuitableCount ps)
          omega
        · rw [maxSuitableCount, if_neg hs] at h
          exact h
      rcases List.mem_cons.mp hq with hq | hq
      · subst hq
        rw [maxSuitableCount, if_pos hsq] at h
        have := Nat.le_max_left q.count (maxSuitableCount ps)
        omega
      · exact (ih.mp hps) q hq hsq
    · intro h
      by_cases hs : p.suitable = true
      · rw [maxSuitableCount, if_pos hs]
        have h1 : p.count = 0 := h p (by simp) hs
        have h2 : maxSuitableCount ps = 0 :=
          ih.mpr (fun q hq hsq => h q (by simp [hq]) hsq)
        simp [h1, h2]
      · rw [maxSuitableCount, if_neg hs]
        exact ih.mpr (fun q hq hsq => h q (by simp [hq]) hsq)

lemma find?_first {α : Type} (f : α → Bool) :
    ∀ (l : List α) (a : α), l.find? f = some a →
      ∃ pre post, l = pre ++ a :: post ∧ ∀ b ∈ pre, f b = false := by
  intro l
  induction l with
  | nil =>
    intro a h
    simp at h
  | cons x l ih =>
    intro a h
    by_cases hx : f x = true
    · rw [List.find?_cons_of_pos _ hx] at h
      injection h with h
      subst h
      exact ⟨[], l, rfl, by simp⟩
    · rw [List.find?_cons_of_neg _ (by simpa using hx)] at h
      rcases ih a h with ⟨pre, post, hl, hpre⟩
      refine ⟨x :: pre, post, by rw [hl]; rfl, ?_⟩
      intro b hb
      rcases List.mem_cons.mp hb with hb | hb
      · subst hb
        simpa using hx
      · exact hpre b hb

/-- C7 as amended: the loop keeps only suitable profiles and returns the
first one attaining the strictly largest subject count, provided that count is
positive; with no suitable profile — or with every suitable profile reporting
zero subjects, since the running best count starts at 0 and only strictly
larger counts are taken — it returns `None`. -/
def BestProfileSpec : Prop :=
  (∀ ps : List Profile,
      get_best_batch_profile ps =
        if maxSuitableCount ps = 0 then none
        else ps.find?
          (fun p => p.suitable && decide (p.count = maxSuitableCount ps))) ∧
  (∀ ps : List Profile,
      (get_best_batch_profile ps = none ↔
        ∀ p ∈ ps, p.suitable = true → p.count = 0)) ∧
  (∀ (ps : List Profile) (p : Profile), get_best_batch_profile ps = some p →
      p ∈ ps ∧ p.suitable = true ∧ 0 < p.count ∧
      (∀ q ∈ ps, q.suitable = true → q.count ≤ p.count) ∧
      ∃ pre post, ps = pre ++ p :: post ∧
        ∀ q ∈ pre, q.suitable = true → q.count < p.count)

/-- C7 (amended): `get_best_batch_profile` keeps the suitable profiles and
returns the first one with the strictly largest `get_subjects_count()` when
that count is positive (first wins on ties); it returns `None` when no profile
is suitable — and also when every suitable profile reports zero subjects. -/
theorem best_profile_amended : BestProfileSpec := by
  have hclosed : ∀ ps : List Profile,
      get_best_batch_profile ps =
        if maxSuitableCount ps = 0 then none
        else ps.find?
          (fun p => p.suitable && decide (p.count = maxSuitableCount ps)) := by
    intro ps
    rw [get_best_batch_profile, gbbpAux_eq ps none 0]
    by_cases h : maxSuitableCount ps = 0
    · rw [if_pos (by omega), if_pos h]
    · rw [if_neg (by omega), if_neg h]
  have hexists : ∀ ps : List Profile, maxSuitableCount ps ≠ 0 →
      ∃ p ∈ ps,
        (fun p => p.suitable && decide (p.count = maxSuitableCount ps)) p = true := by
    intro ps
    induction ps with
    | nil =>
      intro h
      exact absurd rfl h
    | cons p ps ih =>
      intro h
      by_cases hs : p.suitable = true
      · have hM : maxSuitableCount (p :: ps) = max p.count (maxSuitableCount ps) := by
          simp [maxSuitableCount, hs]
        by_cases hge : maxSuitableCount ps ≤ p.count
        · refine ⟨p, by simp, ?_⟩
          simp only [Bool.and_eq_true, decide_eq_true_eq]
          refine ⟨hs, ?_⟩
          rw [hM]
          omega
        · have hne : maxSuitableCount ps ≠ 0 := by omega
          rcases ih hne with ⟨q, hq, hfq⟩
          refine ⟨q, by simp [hq], ?_⟩
          simp only [Bool.and_eq_true, decide_eq_true_eq] at hfq ⊢
          refine ⟨hfq.1, ?_⟩
          rw [hM]
          omega
      · have hM : maxSuitableCount (p :: ps) = maxSuitableCount ps := by
          simp [maxSuitableCount, hs]
        rw [hM] at h ⊢
        rcases ih h with ⟨q, hq, hfq⟩
        exact ⟨q, by simp [hq], hfq⟩
  refine ⟨hclosed, ?_, ?_⟩
  · intro ps
    rw [hclosed ps]
    by_cases h : maxSuitableCount ps = 0
    · rw [if_pos h]
      simp only [true_iff]
      exact fun p hp hs => ((maxSuitableCount_eq_zero ps).mp h) p hp hs
    · rw [if_neg h]
      constructor
      · intro hfind
        rcases hexists ps h with ⟨q, hq, hfq⟩
        have hcontra := List.find?_eq_none.mp hfind q hq
        simp only at hfq
        exact absurd hfq hcontra
      · intro hall
        exact absurd ((maxSuitableCount_eq_zero ps).mpr hall) h
  · intro ps p hp
    rw [hclosed ps] at hp
    by_cases h : maxSuitableCount ps = 0
    · rw [if_pos h] at hp
      simp at hp
    · rw [if_neg h] at hp
      have hmem := List.mem_of_find?_eq_some hp
      have hpred := List.find?_some hp
      simp only [Bool.and_eq_true, decide_eq_true_eq] at hpred
      refine ⟨hmem, hpred.1, by omega, ?_, ?_⟩
      · intro q hq hsq
        have := suitable_count_le_maxSuitableCount ps q hq hsq
        omega
      · rcases find?_first _ ps p hp with ⟨pre, post, hl, hpre⟩
        refine ⟨pre, post, hl, ?_⟩
        intro q hq hsq
        have hle : q.count ≤ maxSuitableCount ps := by
          apply suitable_count_le_maxSuitableCount ps q _ hsq
          rw [hl]
          simp [hq]
        have hqf := hpre q hq
        rcases Bool.and_eq_false_iff.mp hqf with h1 | h1
        · exact absurd hsq (by simpa using h1)
        · have : q.count ≠ maxSuitableCount ps := by simpa using h1
          omega

/-- Witness for C7 (amended): of two suitable profiles with counts 3 and 5,
the one with count 5 is returned, it is maximal, and only smaller suitable
profiles precede it. -/
theorem best_profile_amended_witness :
    get_best_batch_profile [⟨true, 3⟩, ⟨true, 5⟩] = some ⟨true, 5⟩ ∧
    ((⟨true, 5⟩ : Profile) ∈ [(⟨true, 3⟩ : Profile), ⟨true, 5⟩] ∧
      (⟨true, 5⟩ : Profile).suitable = true ∧ 0 < (⟨true, 5⟩ : Profile).count ∧
      (∀ q ∈ [(⟨true, 3⟩ : Profile), ⟨true, 5⟩], q.suitable = true →
        q.count ≤ (⟨true, 5⟩ : Profile).count) ∧
      ∃ pre post,
        [(⟨true, 3⟩ : Profile), ⟨true, 5⟩] = pre ++ ⟨true, 5⟩ :: post ∧
        ∀ q ∈ pre, q.suitable = true → q.count < (⟨true, 5⟩ : Profile).count) :=
  ⟨rfl, best_profile_amended.2.2 [⟨true, 3⟩, ⟨true, 5⟩] ⟨true, 5⟩ rfl⟩

/-- Counterexample to C7 as stated: a registered profile reporting
`profile_suitable() = true` with `get_subjects_count() = 0` is suitable, and
is the (only) suitable profile with the largest count, yet
`get_best_batch_profile` returns `None` (the running best count starts at 0
and only strictly greater counts are ever taken). -/
theorem best_profile_counterexample :
    (Profile.suitable ⟨true, 0⟩ = true) ∧
    get_best_batch_profile [⟨true, 0⟩] = none :=
  ⟨rfl, rfl⟩
/-! ## SimpleBatchProfile._get_subject_output_dir (batch_utils.py)

Python source:
    output_dir = subject_base_dir or os.path.join(self._root_dir, subject_id,
                                                  self.output_base_dir)
    if self.output_sub_dir:
        output_dir = os.path.join(output_dir, self.output_sub_dir)
    if self._append_mask_name_to_output_sub_dir and mask_fname:
        output_dir = os.path.join(output_dir, split_image_path(mask_fname)[1])
    return output_dir

`os.path.join` of two POSIX path components: an absolute second component
replaces the first, an empty first component is dropped, otherwise a single
separator joins them. -/

def pyJoin (a b : String) : String :=
  if b.toList.head? = some '/' then b
  else if a.toList = [] then b
  else if a.toList.getLast? = some '/' then a ++ b
  else a ++ "/" ++ b

/-- Modelled from the spec: `split_image_path` lives in `mdt.utils`, which is
not among the sources here.  Per the spec it splits an image path into
(folder, basename, extension); only the basename is used: the file name with
the image extension stripped (`brain_mask.nii.gz` yields `brain_mask`). -/
def split_image_path_basename (fname : String) : String :=
  let base := (fname.toList.reverse.takeWhile (fun c => c ≠ '/')).reverse
  let stripped :=
    if (".nii.gz".toList).isSuffixOf base then base.take (base.length - 7)
    else if (".nii".toList).isSuffixOf base then base.take (base.length - 4)
    else base
  String.mk stripped

/-- The `SimpleBatchProfile` attributes read by `_get_subject_output_dir`. -/
structure OutputDirConfig where
  root_dir : String
  output_base_dir : String
  output_sub_dir : Option String
  append_mask_name_to_output_sub_dir : Bool
deriving DecidableEq

def _get_subject_output_dir (cfg : OutputDirConfig) (subject_id : String)
    (mask_fname : Option String) (subject_base_dir : Option String) : String :=
  let output_dir :=
    match subject_base_dir with
    | some s =>
      if s = "" then pyJoin (pyJoin cfg.root_dir subject_id) cfg.output_base_dir
      else s
    | none => pyJoin (pyJoin cfg.root_dir subject_id) cfg.output_base_dir
  let output_dir :=
    match cfg.output_sub_dir with
    | some s => if s = "" then output_dir else pyJoin output_dir s
    | none => output_dir
  if cfg.append_mask_name_to_output_sub_dir then
    match mask_fname with
    | some m =>
      if m = "" then output_dir
      else pyJoin output_dir (split_image_path_basename m)
    | none => output_dir
  else output_dir

/-- C9 as stated: the default-configuration example composes to
`root/subj1/output/brain_mask`, and the mask basename is appended exactly when
`append_mask_name_to_output_sub_dir` is set and a (non-empty) mask filename is
given, and is otherwise absent. -/
def SubjectOutputDirSpec : Prop :=
  _get_subject_output_dir ⟨"root", "output", none, true⟩ "subj1"
      (some "brain_mask.nii.gz") none = "root/subj1/output/brain_mask" ∧
  (∀ (cfg : OutputDirConfig) (sid : String) (m sbd : Option String),
      cfg.append_mask_name_to_output_sub_dir = false →
      _get_subject_output_dir cfg sid m sbd =
        _get_subject_output_dir cfg sid none sbd) ∧
  (∀ (cfg : OutputDirConfig) (sid : String) (sbd : Option String),
      _get_subject_output_dir cfg sid none sbd =
        _get_subject_output_dir cfg sid (some "") sbd) ∧
  (∀ (cfg : OutputDirConfig) (sid m : String) (sbd : Option String),
      cfg.append_mask_name_to_output_sub_dir = true → m ≠ "" →
      _get_subject_output_dir cfg sid (some m) sbd =
        pyJoin (_get_subject_output_dir cfg sid none sbd)
          (split_image_path_basename m))

/-- C9: `_get_subject_output_dir` composes
`root/subject_id/output_base_dir[/output_sub_dir][/mask_basename]`, appending
the extension-stripped mask basename only when
`append_mask_name_to_output_sub_dir` is true and a mask filename is given; in
particular with defaults `("subj1", "brain_mask.nii.gz")` yields
`root/subj1/output/brain_mask`. -/
theorem subject_output_dir_spec : SubjectOutputDirSpec := by
  refine ⟨rfl, ?_, ?_, ?_⟩
  · intro cfg sid m sbd h
    simp [_get_subject_output_dir, h]
  · intro cfg sid sbd
    simp [_get_subject_output_dir]
  · intro cfg sid m sbd h hm
    simp [_get_subject_output_dir, h, hm]

/-- Witness for C9: with the flag off the mask filename is ignored, and with
the default configuration the mask basename is joined onto the mask-free
directory. -/
theorem subject_output_dir_spec_witness :
    _get_subject_output_dir ⟨"root", "output", none, false⟩ "subj1"
        (some "brain_mask.nii.gz") none =
      _get_subject_output_dir ⟨"root", "output", none, false⟩ "subj1"
        none none ∧
    _get_subject_output_dir ⟨"root", "output", none, true⟩ "subj1"
        (some "brain_mask.nii.gz") none =
      pyJoin (_get_subject_output_dir ⟨"root", "output", none, true⟩ "subj1"
          none none)
        (split_image_path_basename "brain_mask.nii.gz") :=
  ⟨subject_output_dir_spec.2.1 ⟨"root", "output", none, false⟩ "subj1"
      (some "brain_mask.nii.gz") none rfl,
    subject_output_dir_spec.2.2.2 ⟨"root", "output", none, true⟩ "subj1"
      "brain_mask.nii.gz" none rfl (by decide)⟩
/-! ## collect_batch_fit_output (batch_utils.py)

Python source (the per-subject `copy_function`):
    if not os.path.exists(os.path.join(output_dir, subject_info.subject_id)):
        os.makedirs(os.path.join(output_dir, subject_info.subject_id))
    subject_out = os.path.join(output_dir, subject_info.subject_id, subject_info.model_name)
    if os.path.exists(subject_out) or os.path.islink(subject_out):
        if os.path.islink(subject_out):
            os.unlink(subject_out)
        else:
            shutil.rmtree(subject_out)
    if move:
        shutil.move(subject_info.output_path, subject_out)
    else:
        if symlink:
            os.symlink(subject_info.output_path, subject_out)
        else:
            shutil.copytree(subject_info.output_path, subject_out)

The filesystem is modelled as a finite association of paths (component lists)
to nodes; a directory subtree is the set of entries whose path it prefixes.
`os.path.exists` follows a symlink to its target, `os.path.islink` does not;
`shutil.rmtree` removes a directory subtree and raises on a non-directory
(`NotADirectoryError` on a regular file, an explicit error on a symlink);
`shutil.move` re-roots the source subtree at the destination;
`os.makedirs` intermediate-directory creation is collapsed into inserting the
directory itself (nothing here inspects the intermediate components). -/

abbrev FPath := List String

inductive FNode
  | file
  | dir
  | link (target : FPath)
deriving DecidableEq

abbrev FS := List (FPath × FNode)

def lookupFS (fs : FS) (p : FPath) : Option FNode := fs.lookup p

def islinkFS (fs : FS) (p : FPath) : Bool :=
  match lookupFS fs p with
  | some (FNode.link _) => true
  | _ => false

def existsFS (fs : FS) (p : FPath) : Bool :=
  match lookupFS fs p with
  | some (FNode.link t) => (lookupFS fs t).isSome
  | some _ => true
  | none => false

def unlinkFS (fs : FS) (p : FPath) : FS := fs.filter (fun q => !(q.1 == p))

def rmtreeFS (fs : FS) (p : FPath) : Except Unit FS :=
  match lookupFS fs p with
  | some FNode.dir => Except.ok (fs.filter (fun q => !(p.isPrefixOf q.1)))
  | _ => Except.error ()

def makedirsFS (fs : FS) (p : FPath) : FS := (p, FNode.dir) :: fs

def moveFS (fs : FS) (src dst : FPath) : FS :=
  fs.map (fun q => if src.isPrefixOf q.1 then (dst ++ q.1.drop src.length, q.2) else q)

def symlinkFS (fs : FS) (src dst : FPath) : FS := (dst, FNode.link src) :: fs

def copytreeFS (fs : FS) (src dst : FPath) : FS :=
  ((fs.filter (fun q => src.isPrefixOf q.1)).map
    (fun q => (dst ++ q.1.drop src.length, q.2))) ++ fs

/-- The final copy/move/symlink dispatch of `copy_function` (`move` overrules
`symlink`, which overrules plain copying). -/
def applyModeFS (mv sl : Bool) (src dst : FPath) (fs : FS) : FS :=
  if mv then moveFS fs src dst
  else if sl then symlinkFS fs src dst
  else copytreeFS fs src dst

/-- The destination-cleanup step of `copy_function`. -/
def cleanDestination (fs : FS) (dst : FPath) : Except Unit FS :=
  if existsFS fs dst || islinkFS fs dst then
    if islinkFS fs dst then Except.ok (unlinkFS fs dst)
    else rmtreeFS fs dst
  else Except.ok fs

/-- The leading `os.makedirs` step of `copy_function`. -/
def ensureSubjectDir (fs : FS) (p : FPath) : FS :=
  if !(existsFS fs p) then makedirsFS fs p else fs

def copy_function (mv sl : Bool) (output_dir : FPath)
    (subject_id model_name : String) (output_path : FPath) (fs : FS) :
    Except Unit FS :=
  let fs1 := ensureSubjectDir fs (output_dir ++ [subject_id])
  match cleanDestination fs1 (output_dir ++ [subject_id, model_name]) with
  | Except.error e => Except.error e
  | Except.ok fs2 =>
    Except.ok (applyModeFS mv sl output_path
      (output_dir ++ [subject_id, model_name]) fs2)

lemma lookup_unlinkFS (fs : FS) (p : FPath) :
    lookupFS (unlinkFS fs p) p = none := by
  simp only [lookupFS, unlinkFS]
  rw [List.lookup_eq_none_iff]
  intro q hq
  rcases List.mem_filter.mp hq with ⟨_, hne⟩
  simp only [bne_iff_ne, ne_eq]
  simp only [Bool.not_eq_eq_eq_not, Bool.not_true, beq_eq_false_iff_ne, ne_eq] at hne
  exact fun h => hne h.symm

lemma moveFS_lookup_src (fs : FS) (src dst : FPath)
    (h : dst.isPrefixOf src = false) :
    lookupFS (moveFS fs src dst) src = none := by
  simp only [lookupFS, moveFS]
  rw [List.lookup_eq_none_iff]
  intro q hq
  rcases List.mem_map.mp hq with ⟨q0, hq0, hmap⟩
  by_cases hp : src.isPrefixOf q0.1 = true
  · rw [if_pos hp] at hmap
    subst hmap
    simp only [bne_iff_ne, ne_eq]
    intro hcontra
    have hpre : dst <+: src := ⟨q0.1.drop src.length, hcontra.symm⟩
    rw [← List.isPrefixOf_iff_prefix] at hpre
    rw [h] at hpre
    exact absurd hpre (by simp)
  · rw [if_neg hp] at hmap
    subst hmap
    simp only [bne_iff_ne, ne_eq]
    intro hcontra
    apply hp
    rw [List.isPrefixOf_iff_prefix, hcontra]

/-- C8 as amended: a pre-existing symlink at the destination is unlinked and a
pre-existing directory is tree-removed before the mode operation writes the
destination; when both `move` and `symlink` are requested the `symlink` flag
is ignored (move wins) and a successful move leaves nothing at the source
path.  (A pre-existing regular file at the destination is not removed:
`shutil.rmtree` fails on it, aborting the operation — see the
counterexample.) -/
def CollectSpec : Prop :=
  (∀ (mv sl : Bool) (od : FPath) (sid mn : String) (src : FPath) (fs : FS),
      islinkFS (ensureSubjectDir fs (od ++ [sid])) (od ++ [sid, mn]) = true →
      copy_function mv sl od sid mn src fs =
        Except.ok (applyModeFS mv sl src (od ++ [sid, mn])
          (unlinkFS (ensureSubjectDir fs (od ++ [sid])) (od ++ [sid, mn]))) ∧
      lookupFS (unlinkFS (ensureSubjectDir fs (od ++ [sid])) (od ++ [sid, mn]))
        (od ++ [sid, mn]) = none) ∧
  (∀ (mv sl : Bool) (od : FPath) (sid mn : String) (src : FPath) (fs : FS),
      lookupFS (ensureSubjectDir fs (od ++ [sid])) (od ++ [sid, mn]) =
        some FNode.dir →
      copy_function mv sl od sid mn src fs =
        Except.ok (applyModeFS mv sl src (od ++ [sid, mn])
          ((ensureSubjectDir fs (od ++ [sid])).filter
            (fun q => !((od ++ [sid, mn]).isPrefixOf q.1)))) ∧
      lookupFS ((ensureSubjectDir fs (od ++ [sid])).filter
          (fun q => !((od ++ [sid, mn]).isPrefixOf q.1))) (od ++ [sid, mn]) =
        none) ∧
  (∀ (sl1 sl2 : Bool) (od : FPath) (sid mn : String) (src : FPath) (fs : FS),
      copy_function true sl1 od sid mn src fs =
        copy_function true sl2 od sid mn src fs) ∧
  (∀ (sl : Bool) (od : FPath) (sid mn : String) (src : FPath) (fs fs2 : FS),
      copy_function true sl od sid mn src fs = Except.ok fs2 →
      (od ++ [sid, mn]).isPrefixOf src = false →
      lookupFS fs2 src = none ∧ existsFS fs2 src = false)

/-- C8 (amended): `collect_batch_fit_output` places each discovered output at
`output_dir/subject_id/model_name`, first removing a pre-existing symlink or
directory there (a pre-existing regular file makes the removal step fail);
with both `move=True` and `symlink=True`, move takes precedence and the
source ceases to exist at its original location. -/
theorem collect_output_amended : CollectSpec := by
  refine ⟨?_, ?_, ?_, ?_⟩
  · intro mv sl od sid mn src fs hl
    refine ⟨?_, lookup_unlinkFS _ _⟩
    unfold copy_function
    dsimp only
    rw [show cleanDestination (ensureSubjectDir fs (od ++ [sid]))
        (od ++ [sid, mn]) =
        Except.ok (unlinkFS (ensureSubjectDir fs (od ++ [sid]))
          (od ++ [sid, mn])) by simp [cleanDestination, hl]]
  · intro mv sl od sid mn src fs hd
    have hlink : islinkFS (ensureSubjectDir fs (od ++ [sid]))
        (od ++ [sid, mn]) = false := by
      simp [islinkFS, hd]
    have hex : existsFS (ensureSubjectDir fs (od ++ [sid]))
        (od ++ [sid, mn]) = true := by
      simp [existsFS, hd]
    refine ⟨?_, ?_⟩
    · unfold copy_function
      dsimp only
      rw [show cleanDestination (ensureSubjectDir fs (od ++ [sid]))
          (od ++ [sid, mn]) =
          Except.ok ((ensureSubjectDir fs (od ++ [sid])).filter
            (fun q => !((od ++ [sid, mn]).isPrefixOf q.1))) by
        simp [cleanDestination, hlink, hex, rmtreeFS, hd]]
    · simp only [lookupFS]
      rw [List.lookup_eq_none_iff]
      intro q hq
      rcases List.mem_filter.mp hq with ⟨_, hne⟩
      simp only [bne_iff_ne, ne_eq]
      intro hcontra
      rw [← hcontra] at hne
      rw [show (od ++ [sid, mn]).isPrefixOf (od ++ [sid, mn]) = true by
        rw [List.isPrefixOf_iff_prefix]] at hne
      simp at hne
  · intro sl1 sl2 od sid mn src fs
    unfold copy_function
    dsimp only
    rcases cleanDestination (ensureSubjectDir fs (od ++ [sid]))
        (od ++ [sid, mn]) with e | fs2
    · rfl
    · simp [applyModeFS]
  · intro sl od sid mn src fs fs2 hok hpre
    unfold copy_function at hok
    dsimp only at hok
    rcases hcln : cleanDestination (ensureSubjectDir fs (od ++ [sid]))
        (od ++ [sid, mn]) with e | fs3
    · rw [hcln] at hok
      simp at hok
    · rw [hcln] at hok
      simp only [Except.ok.injEq] at hok
      have hfs2 : fs2 = moveFS fs3 src (od ++ [sid, mn]) := by
        rw [← hok]
        simp [applyModeFS]
      have hnone : lookupFS fs2 src = none := by
        rw [hfs2]
        exact moveFS_lookup_src fs3 src (od ++ [sid, mn]) hpre
      exact ⟨hnone, by simp [existsFS, hnone]⟩

/-- Witness for C8 (amended): a symlink at the destination is unlinked, the
`symlink` flag is ignored under `move`, and after a successful move the source
path is gone. -/
theorem collect_output_amended_witness :
    (copy_function true true ["out"] "s1" "m1" ["srcp"]
        [(["out", "s1", "m1"], FNode.link ["old"]), (["out", "s1"], FNode.dir)] =
      Except.ok (applyModeFS true true ["srcp"] (["out"] ++ ["s1", "m1"])
        (unlinkFS (ensureSubjectDir
            [(["out", "s1", "m1"], FNode.link ["old"]), (["out", "s1"], FNode.dir)]
            (["out"] ++ ["s1"])) (["out"] ++ ["s1", "m1"]))) ∧
      lookupFS (unlinkFS (ensureSubjectDir
          [(["out", "s1", "m1"], FNode.link ["old"]), (["out", "s1"], FNode.dir)]
          (["out"] ++ ["s1"])) (["out"] ++ ["s1", "m1"]))
        (["out"] ++ ["s1", "m1"]) = none) ∧
    copy_function true true ["out"] "s1" "m1" ["srcp"]
        [(["srcp"], FNode.dir), (["out", "s1"], FNode.dir)] =
      copy_function true false ["out"] "s1" "m1" ["srcp"]
        [(["srcp"], FNode.dir), (["out", "s1"], FNode.dir)] ∧
    (lookupFS [((["out", "s1", "m1"] : FPath), FNode.dir),
        (["out", "s1"], FNode.dir)] ["srcp"] = none ∧
      existsFS [((["out", "s1", "m1"] : FPath), FNode.dir),
        (["out", "s1"], FNode.dir)] ["srcp"] = false) := by
  refine ⟨?_, ?_, ?_⟩
  · exact collect_output_amended.1 true true ["out"] "s1" "m1" ["srcp"]
      [(["out", "s1", "m1"], FNode.link ["old"]), (["out", "s1"], FNode.dir)]
      (by decide)
  · exact collect_output_amended.2.2.1 true false ["out"] "s1" "m1" ["srcp"]
      [(["srcp"], FNode.dir), (["out", "s1"], FNode.dir)]
  · exact collect_output_amended.2.2.2 true ["out"] "s1" "m1" ["srcp"]
      [(["srcp"], FNode.dir), (["out", "s1"], FNode.dir)]
      [(["out", "s1", "m1"], FNode.dir), (["out", "s1"], FNode.dir)]
      rfl (by decide)

/-- Counterexample to C8 as stated: a pre-existing regular FILE at the
destination is not removed — `os.path.islink` is false on it, so the cleanup
branch calls `shutil.rmtree` on a non-directory, which raises, and the
collection aborts instead of placing the output. -/
theorem collect_output_counterexample :
    lookupFS [((["out", "s1", "m1"] : FPath), FNode.file), (["srcp"], FNode.dir)]
      (["out"] ++ ["s1", "m1"]) = some FNode.file ∧
    copy_function false true ["out"] "s1" "m1" ["srcp"]
      [(["out", "s1", "m1"], FNode.file), (["srcp"], FNode.dir)] =
      Except.error () :=
  ⟨rfl, rfl⟩
/-! ## BatchFitOutputInfo._get_single_model_names (batch_utils.py)

Python source:
    lookup_cache = {}

    def get_names(current_names):
        single_model_names = []
        for model_name in current_names:
            if model_name not in lookup_cache:
                model = get_model(model_name)
                if isinstance(model, DMRICascadeModelInterface):
                    resolved_names = get_names(model.get_model_names())
                    lookup_cache[model_name] = resolved_names
                else:
                    lookup_cache[model_name] = [model_name]
            single_model_names.extend(lookup_cache[model_name])
        return single_model_names

    return list(set(get_names(model_names)))

The external model registry (`get_model` plus the cascade interface with
`get_model_names`) is embedded as a finite association of cascade names to
their ordered sub-model names; a name not in the association is a leaf.  The
dictionary `lookup_cache` is threaded explicitly (fresh per invocation, shared
across the recursion).  The unbounded Python recursion is given a fuel bound,
sufficient whenever the cascade graph is acyclic; `list(set(...))` has set
semantics, embedded as deduplication. -/

abbrev Registry := List (String × List String)

mutual
def getName (reg : Registry) : Nat → String → Registry → List String × Registry
  | fuel, n, cache =>
    match cache.lookup n with
    | some v => (v, cache)
    | none =>
      match reg.lookup n with
      | some subs =>
        match fuel with
        | 0 => ([], cache)
        | f + 1 =>
          let r := getNamesList reg f subs cache
          (r.1, (n, r.1) :: r.2)
      | none => ([n], (n, [n]) :: cache)
termination_by fuel n cache => (fuel, 0)

def getNamesList (reg : Registry) : Nat → List String → Registry → List String × Registry
  | fuel, [], cache => ([], cache)
  | fuel, n :: ns, cache =>
    let r1 := getName reg fuel n cache
    let r2 := getNamesList reg fuel ns r1.2
    (r1.1 ++ r2.1, r2.2)
termination_by fuel ns cache => (fuel, ns.length + 1)
end

def get_single_model_names (reg : Registry) (fuel : Nat)
    (model_names : List String) : List String :=
  (getNamesList reg fuel model_names []).1.dedup

/-- A name reaches a leaf name: itself when it is a leaf, or a leaf reached by
one of its sub-models when it is a cascade. -/
inductive Reaches (reg : Registry) : String → String → Prop
  | leaf (n : String) : reg.lookup n = none → Reaches reg n n
  | step (n m l : String) (subs : List String) :
      reg.lookup n = some subs → m ∈ subs → Reaches reg m l → Reaches reg n l

/-- Every memo entry stores exactly the leaf names reachable from its key. -/
def CacheOK (reg cache : Registry) : Prop :=
  ∀ p ∈ cache, ∀ l, l ∈ p.2 ↔ Reaches reg p.1 l

/-- Acyclicity of the cascade graph, exhibited by a rank function that drops
strictly from a cascade to each of its sub-models. -/
abbrev Ranked (reg : Registry) (rank : String → Nat) : Prop :=
  ∀ p ∈ reg, ∀ m ∈ p.2, rank m < rank p.1

lemma mem_of_lookup_eq_some {α β : Type} [BEq α] [LawfulBEq α] :
    ∀ {l : List (α × β)} {k : α} {v : β}, l.lookup k = some v → (k, v) ∈ l := by
  intro l
  induction l with
  | nil =>
    intro k v h
    simp at h
  | cons p l ih =>
    intro k v h
    rcases p with ⟨k2, v2⟩
    rw [List.lookup_cons] at h
    split at h
    · rename_i heq
      injection h with hv
      have hk : k = k2 := eq_of_beq heq
      subst hk
      subst hv
      exact List.mem_cons_self _ _
    · exact List.mem_cons_of_mem _ (ih h)

lemma reaches_leaf_iff {reg : Registry} {n : String} (h : reg.lookup n = none)
    (l : String) : Reaches reg n l ↔ l = n := by
  constructor
  · intro hr
    cases hr with
    | leaf _ _ => rfl
    | step _ m _ subs hlook _ _ =>
      rw [h] at hlook
      cases hlook
  · rintro rfl
    exact Reaches.leaf _ h

lemma reaches_cascade_iff {reg : Registry} {n : String} {subs : List String}
    (h : reg.lookup n = some subs) (l : String) :
    Reaches reg n l ↔ ∃ m ∈ subs, Reaches reg m l := by
  constructor
  · intro hr
    cases hr with
    | leaf _ hlook =>
      rw [h] at hlook
      cases hlook
    | step _ m _ subs2 hlook hm hr2 =>
      rw [h] at hlook
      injection hlook with he
      subst he
      exact ⟨m, hm, hr2⟩
  · rintro ⟨m, hm, hr⟩
    exact Reaches.step n m l subs h hm hr

lemma resolve_spec (reg : Registry) (rank : String → Nat) (hrank : Ranked reg rank) :
    ∀ fuel : Nat,
      (∀ (n : String) (cache : Registry), CacheOK reg cache → rank n < fuel →
        CacheOK reg (getName reg fuel n cache).2 ∧
        (∀ l, l ∈ (getName reg fuel n cache).1 ↔ Reaches reg n l)) ∧
      (∀ ns : List String, ∀ cache : Registry, CacheOK reg cache →
        (∀ n ∈ ns, rank n < fuel) →
        CacheOK reg (getNamesList reg fuel ns cache).2 ∧
        (∀ l, l ∈ (getNamesList reg fuel ns cache).1 ↔
          ∃ n ∈ ns, Reaches reg n l)) := by
  intro fuel
  induction fuel with
  | zero =>
    constructor
    · intro n cache hc hr
      exact absurd hr (Nat.not_lt_zero _)
    · intro ns
      cases ns with
      | nil =>
        intro cache hc _
        have he : getNamesList reg 0 ([] : List String) cache = ([], cache) := by
          rw [getNamesList]
        rw [he]
        exact ⟨hc, by simp⟩
      | cons n ns =>
        intro cache hc hr
        exact absurd (hr n (by simp)) (Nat.not_lt_zero _)
  | succ f ih =>
    have hname : ∀ (n : String) (cache : Registry), CacheOK reg cache →
        rank n < f + 1 →
        CacheOK reg (getName reg (f + 1) n cache).2 ∧
        (∀ l, l ∈ (getName reg (f + 1) n cache).1 ↔ Reaches reg n l) := by
      intro n cache hc hr
      rw [getName]
      cases hl : cache.lookup n with
      | some v =>
        refine ⟨hc, ?_⟩
        intro l
        exact hc (n, v) (mem_of_lookup_eq_some hl) l
      | none =>
        cases hreg : reg.lookup n with
        | none =>
          dsimp only
          refine ⟨?_, ?_⟩
          · intro p hp l
            rcases List.mem_cons.mp hp with hp | hp
            · subst hp
              rw [reaches_leaf_iff hreg]
              simp
            · exact hc p hp l
          · intro l
            rw [reaches_leaf_iff hreg]
            simp
        | some subs =>
          have hsubs : ∀ m ∈ subs, rank m < f := by
            intro m hm
            have h1 : rank m < rank n :=
              hrank (n, subs) (mem_of_lookup_eq_some hreg) m hm
            omega
          have hrec := ih.2 subs cache hc hsubs
          dsimp only
          refine ⟨?_, ?_⟩
          · intro p hp l
            rcases List.mem_cons.mp hp with hp | hp
            · subst hp
              rw [reaches_cascade_iff hreg]
              exact hrec.2 l
            · exact hrec.1 p hp l
          · intro l
            rw [reaches_cascade_iff hreg]
            exact hrec.2 l
    refine ⟨hname, ?_⟩
    intro ns
    induction ns with
    | nil =>
      intro cache hc _
      have he : getNamesList reg (f + 1) ([] : List String) cache = ([], cache) := by
        rw [getNamesList]
      rw [he]
      exact ⟨hc, by simp⟩
    | cons n ns ihn =>
      intro cache hc hr
      have h1 := hname n cache hc (hr n (by simp))
      have h2 := ihn (getName reg (f + 1) n cache).2 h1.1
        (fun m hm => hr m (by simp [hm]))
      have he : getNamesList reg (f + 1) (n :: ns) cache =
          ((getName reg (f + 1) n cache).1 ++
            (getNamesList reg (f + 1) ns (getName reg (f + 1) n cache).2).1,
            (getNamesList reg (f + 1) ns (getName reg (f + 1) n cache).2).2) := by
        rw [getNamesList]
      rw [he]
      refine ⟨h2.1, ?_⟩
      intro l
      simp only [List.mem_append]
      constructor
      · rintro (hA | hB)
        · exact ⟨n, by simp, (h1.2 l).mp hA⟩
        · rcases (h2.2 l).mp hB with ⟨m, hm, hrm⟩
          exact ⟨m, by simp [hm], hrm⟩
      · rintro ⟨m, hm, hrm⟩
        rcases List.mem_cons.mp hm with hm | hm
        · subst hm
          exact Or.inl ((h1.2 l).mpr hrm)
        · exact Or.inr ((h2.2 l).mpr ⟨m, hm, hrm⟩)

/-- The concrete registry of the spec example: cascade A over `["B", "C"]`
where C is a cascade over `["D", "B"]`. -/
def exampleReg : Registry :=
  [("A (Cascade)", ["B", "C (Cascade)"]), ("C (Cascade)", ["D", "B"])]

/-- A rank function witnessing that `exampleReg` is acyclic. -/
def exampleRank (n : String) : Nat :=
  if n = "A (Cascade)" then 2 else if n = "C (Cascade)" then 1 else 0

/-- C4, as stated by the spec: over any acyclic registry (and enough fuel for
the embedded recursion), `_get_single_model_names` returns a duplicate-free
list whose members are exactly the leaf names reachable from the input names;
the memo starts empty on each invocation.  In particular the spec example
resolves to exactly the set containing `"B"` and `"D"`. -/
def CascadeResolutionSpec : Prop :=
  (∀ (reg : Registry) (rank : String → Nat) (fuel : Nat) (names : List String),
      Ranked reg rank → (∀ n ∈ names, rank n < fuel) →
      (get_single_model_names reg fuel names).Nodup ∧
      ∀ l, l ∈ get_single_model_names reg fuel names ↔
        ∃ n ∈ names, Reaches reg n l) ∧
  (get_single_model_names exampleReg 3 ["A (Cascade)"] = ["D", "B"] ∧
    ∀ l, l ∈ get_single_model_names exampleReg 3 ["A (Cascade)"] ↔
      (l = "B" ∨ l = "D"))

/-- C4: `_get_single_model_names` resolves a list of (possibly cascade) model
names to the deduplicated set of reachable leaf names, with a fresh memo per
invocation; resolving `["A (Cascade)"]` with A over `["B", "C (Cascade)"]` and
C over `["D", "B"]` yields exactly the set of `"B"` and `"D"`. -/
theorem single_model_names_correct : CascadeResolutionSpec := by
  have hconc : get_single_model_names exampleReg 3 ["A (Cascade)"] = ["D", "B"] := by
    simp [get_single_model_names, getNamesList, getName, exampleReg,
      List.lookup, List.dedup, List.pwFilter]
  constructor
  · intro reg rank fuel names hrank hfuel
    have hmain := (resolve_spec reg rank hrank fuel).2 names []
      (by intro p hp; simp at hp) hfuel
    constructor
    · exact List.nodup_dedup _
    · intro l
      rw [get_single_model_names, List.mem_dedup]
      exact hmain.2 l
  · refine ⟨hconc, ?_⟩
    intro l
    rw [hconc]
    simp only [List.mem_cons, List.not_mem_nil, or_false]
    constructor
    · rintro (h | h) <;> simp [h]
    · rintro (h | h) <;> simp [h]

/-- Witness for C4 at the spec example, with the acyclicity rank
`exampleRank` and fuel 3. -/
theorem single_model_names_correct_witness :
    Ranked exampleReg exampleRank ∧
    (∀ n ∈ ["A (Cascade)"], exampleRank n < 3) ∧
    ((get_single_model_names exampleReg 3 ["A (Cascade)"]).Nodup ∧
      ∀ l, l ∈ get_single_model_names exampleReg 3 ["A (Cascade)"] ↔
        ∃ n ∈ ["A (Cascade)"], Reaches exampleReg n l) :=
  ⟨by decide, by decide,
    single_model_names_correct.1 exampleReg exampleRank 3 ["A (Cascade)"]
      (by decide) (by decide)⟩
end MDT
